import Mathlib

/-!
Verification of the boundary-tag memory allocator in `src/mm.c` (implicit
address-ordered block list, next-fit search, eager coalescing).

Shallow embedding.  The heap is a single byte region laid out exactly as the
source builds it (mm_init, src/mm.c:149-170):

  bytes 0..3    padding word (PUT(heap_listp, 0))
  bytes 4..11   prologue block: header `PACK(8,1)` at 4, footer `PACK(8,1)` at 8
  bytes 12..    the real blocks, each: 4-byte header `PACK(size,alloc)`,
                `size - 8` payload bytes, 4-byte footer `PACK(size,alloc)`
  last 4 bytes  epilogue header `PACK(0,1)`

A block pointer (`bp` in the source) is the byte address of a payload; the
prologue's is 8 (`heap_listp`), real block `i`'s is `16 + Σ_{j<i} size_j`, and
the epilogue's is `16 + Σ size_j`.  The state carries the real blocks as a
list of records (header and footer are written together by every primitive of
the source, so a block is its size, its allocated bit and its payload bytes),
plus the `rover` cursor as a byte address, the three free-list globals
(src/mm.c:267-269), and the capacity of the external region provider
(`mem_sbrk` fails beyond it; the provider's capacity is below 2^32, so the
32-bit header words of the source never truncate a size).
-/

namespace MM

/-- WSIZE (src/mm.c:30): word and header/footer size in bytes. -/
def WSIZE : Nat := 4

/-- DSIZE (src/mm.c:31): double word size in bytes. -/
def DSIZE : Nat := 8

/-- CHUNKSIZE (src/mm.c:32): default heap extension in bytes. -/
def CHUNKSIZE : Nat := 4096

/-- SIZE_T_SIZE (src/mm.c:27): ALIGN(sizeof(size_t)) = 8 both on LP64
(sizeof(size_t) = 8) and on ILP32 (ALIGN(4) = 8). -/
def SIZE_T_SIZE : Nat := 8

/-- One heap block: total span in bytes (header and footer included), the
allocated bit, and the payload bytes.  In well-formed heaps
`data.length = size - 8`. -/
structure Blk where
  size  : Nat
  alloc : Bool
  data  : List Nat
  deriving Repr, DecidableEq

instance : Inhabited Blk := ⟨⟨0, true, []⟩⟩

/-- PACK(size, alloc) (src/mm.c:37): or the allocated bit into the size word. -/
def pack (sz : Nat) (al : Bool) : Nat := sz ||| (if al then 1 else 0)

/-- Little-endian byte image of a 32-bit header/footer word (GET/PUT read and
write `unsigned int`, src/mm.c:40-41). -/
def le4 (v : Nat) : List Nat :=
  [v % 256, v / 256 % 256, v / 256 ^ 2 % 256, v / 256 ^ 3 % 256]

/-- Allocator state: the real blocks in address order, the next-fit cursor
`rover` (src/mm.c:57, a byte address), `heap_listp` is the constant 8, the
free-list globals `freeHead`, `firstHead`, `num_freeblocks`
(src/mm.c:267-269, all zero-initialized and never written), and the region
provider's capacity in bytes. -/
structure Heap where
  blocks : List Blk
  rover : Nat
  freeHead : Option Nat
  firstHead : Option Nat
  num_freeblocks : Nat
  capacity : Nat
  deriving Repr, DecidableEq

instance : Inhabited Heap := ⟨⟨[], 0, none, none, 0, 0⟩⟩

def sumSizes (bs : List Blk) : Nat := (bs.map Blk.size).sum

/-- Byte address of the payload of real block `k` (the source's block
pointer); `blkAddr bs bs.length` is the epilogue's block pointer. -/
def blkAddr (bs : List Blk) (k : Nat) : Nat := 16 + sumSizes (bs.take k)

/-- Current heap extent in bytes (padding + prologue + blocks + epilogue
header); `mem_heap_hi()` is `heapSize s - 1`. -/
def heapSize (s : Heap) : Nat := 16 + sumSizes s.blocks

/-- Resolve a block pointer to the index of the real block whose payload
starts there. -/
def realIdxOfAddr (s : Heap) (p : Nat) : Option Nat :=
  (List.range s.blocks.length).find? (fun i => blkAddr s.blocks i == p)

/-- The block whose payload starts at `p`, if any. -/
def blockAt (s : Heap) (p : Nat) : Option Blk :=
  (realIdxOfAddr s p).map (fun i => s.blocks.getD i default)

/-- Byte image of the real-block region (per block: header word, payload,
footer word). -/
def blocksBytes : List Blk → List Nat
  | [] => []
  | b :: bs =>
      le4 (pack b.size b.alloc) ++ b.data ++ le4 (pack b.size b.alloc) ++ blocksBytes bs

/-- Full byte image of the heap, as laid out by the source (see module
comment). -/
def heapBytes (s : Heap) : List Nat :=
  le4 0 ++ le4 (pack 8 true) ++ le4 (pack 8 true) ++ blocksBytes s.blocks
    ++ le4 (pack 0 true)

/-- Byte read at address `a`; reads past the heap (undefined behavior in the
source) give 0. -/
def byteAt (s : Heap) (a : Nat) : Nat := (heapBytes s).getD a 0

/-- An 8-byte little-endian read, as `*(size_t *)` does on LP64
(src/mm.c:252). -/
def readSizeT (s : Heap) (a : Nat) : Nat :=
  byteAt s a + 256 * byteAt s (a + 1) + 256 ^ 2 * byteAt s (a + 2)
    + 256 ^ 3 * byteAt s (a + 3) + 256 ^ 4 * byteAt s (a + 4)
    + 256 ^ 5 * byteAt s (a + 5) + 256 ^ 6 * byteAt s (a + 6)
    + 256 ^ 7 * byteAt s (a + 7)

/-- The byte image of one block: header word, payload, footer word. -/
def blkBytes (b : Blk) : List Nat :=
  le4 (pack b.size b.alloc) ++ b.data ++ le4 (pack b.size b.alloc)

/-- The merged block produced by coalesce cases 2 and 3 (src/mm.c:435-446):
sizes add; the first block's old footer word and the second's old header word
are not rewritten by the source and remain as payload bytes of the merged
block (both blocks are free, so those words read `PACK(size, 0)`). -/
def mergedBlk2 (a b : Blk) : Blk :=
  ⟨a.size + b.size, false,
    a.data ++ le4 (pack a.size false) ++ le4 (pack b.size false) ++ b.data⟩

/-- The merged block of coalesce case 4 (src/mm.c:448-453): the freed block
`b` and both neighbors merge; the interior boundary words (a's footer, b's
header, b's footer, c's header) remain as payload bytes. -/
def mergedBlk3 (a b c : Blk) : Blk :=
  ⟨a.size + b.size + c.size, false,
    a.data ++ le4 (pack a.size false) ++ le4 (pack b.size false) ++ b.data
      ++ le4 (pack b.size false) ++ le4 (pack c.size false) ++ c.data⟩

/-- coalesce (src/mm.c:423-460), on the (already free) block of index `i`.
`prev_alloc` reads the previous block's footer (the prologue, always
allocated, when `i = 0`); `next_alloc` reads the next block's header (the
epilogue, always allocated, when `i` is last).  Case 1 returns early,
skipping the rover fixup; the other cases merge and then reposition `rover`
when `bp < rover < NEXT_BLKP(bp)` (src/mm.c:456-458), where `bp` is the
merged block's pointer and `NEXT_BLKP(bp)` is `bp` plus the merged size.
Returns the new state and the merged block's index. -/
def coalesce (s : Heap) (i : Nat) : Heap × Nat :=
  let b := s.blocks.getD i default
  let prevAlloc : Bool := if i = 0 then true else (s.blocks.getD (i - 1) default).alloc
  let nextAlloc : Bool :=
    if i + 1 = s.blocks.length then true else (s.blocks.getD (i + 1) default).alloc
  if prevAlloc && nextAlloc then (s, i)
  else
    let bsj : List Blk × Nat :=
      if prevAlloc && !nextAlloc then
        (s.blocks.take i
          ++ mergedBlk2 b (s.blocks.getD (i + 1) default) :: s.blocks.drop (i + 2), i)
      else if !prevAlloc && nextAlloc then
        (s.blocks.take (i - 1)
          ++ mergedBlk2 (s.blocks.getD (i - 1) default) b :: s.blocks.drop (i + 1), i - 1)
      else
        (s.blocks.take (i - 1)
          ++ mergedBlk3 (s.blocks.getD (i - 1) default) b (s.blocks.getD (i + 1) default)
              :: s.blocks.drop (i + 2), i - 1)
    let bp := blkAddr bsj.1 bsj.2
    let rover' :=
      if bp < s.rover ∧ s.rover < bp + (bsj.1.getD bsj.2 default).size then bp else s.rover
    ({ s with blocks := bsj.1, rover := rover' }, bsj.2)

/-- The common shape of the three merging branches of coalesce: replace the
slice `[l, r)` of the blocks by the single merged block `m` and apply the
rover fixup of src/mm.c:456-458. -/
def mergeUpd (s : Heap) (l r : Nat) (m : Blk) : Heap × Nat :=
  let bs' := s.blocks.take l ++ m :: s.blocks.drop r
  let bp := blkAddr bs' l
  let rover' :=
    if bp < s.rover ∧ s.rover < bp + (bs'.getD l default).size then bp else s.rover
  ({ s with blocks := bs', rover := rover' }, l)

/-- mm_free (src/mm.c:215-226): no-op on NULL; otherwise rewrite the block's
header and footer with the allocated bit cleared and coalesce.  Calling it on
a pointer that is not a live block pointer is undefined behavior in the
source; such calls are modeled as no-ops and excluded by `validOp`. -/
def mm_free (s : Heap) (bp : Nat) : Heap :=
  if bp = 0 then s
  else
    match realIdxOfAddr s bp with
    | none => s
    | some i =>
        let b := s.blocks.getD i default
        (coalesce { s with blocks := s.blocks.set i { b with alloc := false } } i).1

/-- place (src/mm.c:369-386): if `csize - asize >= DSIZE * 2` split the free
block at `bp` into an allocated block of `asize` bytes and a free remainder
(whose payload is the old payload past byte `asize`; old payload bytes
`asize-8 .. asize-1` are overwritten by the new footer and header), else mark
the whole block allocated.  `csize - asize` is size_t arithmetic; place is
only ever called with `asize ≤ csize` (a block returned by find_fit or
extend_heap fits), where it agrees with Nat subtraction. -/
def place (s : Heap) (bp asize : Nat) : Heap :=
  match realIdxOfAddr s bp with
  | none => s
  | some i =>
      let b := s.blocks.getD i default
      let csize := b.size
      if DSIZE * 2 ≤ csize - asize then
        { s with blocks :=
            s.blocks.take i
              ++ ⟨asize, true, b.data.take (asize - 8)⟩
                :: ⟨csize - asize, false, b.data.drop asize⟩ :: s.blocks.drop (i + 1) }
      else
        { s with blocks := s.blocks.set i ⟨csize, true, b.data⟩ }

/-- extend_heap (src/mm.c:342-362): round the word count up to an even number
of words, grow the region (failing when the provider's capacity would be
exceeded), write the new free block's header/footer over the old epilogue and
a fresh epilogue after it (the new payload is fresh zero memory), and
coalesce with a trailing free block.  Returns the new state and the block
pointer coalesce returned. -/
def extend_heap (s : Heap) (words : Nat) : Option (Heap × Nat) :=
  let size := if words % 2 = 1 then (words + 1) * WSIZE else words * WSIZE
  if s.capacity < heapSize s + size then none
  else
    let s1 := { s with blocks := s.blocks ++ [⟨size, false, List.replicate (size - 8) 0⟩] }
    let r := coalesce s1 s.blocks.length
    some (r.1, blkAddr r.1.blocks r.2)

/-- The prologue as a block (size 8, allocated, empty payload). -/
def proBlk : Blk := ⟨8, true, []⟩

/-- The epilogue as a block (size 0, allocated). -/
def epiBlk : Blk := ⟨0, true, []⟩

/-- The full block sequence the source's pointer walk traverses: prologue,
real blocks, epilogue. -/
def chain (s : Heap) : List Blk := proBlk :: s.blocks ++ [epiBlk]

/-- The suffix of the block sequence starting at address `a`, walking from
address `cur` by header sizes (how the source reaches `rover`'s block). -/
def suffixFrom : List Blk → Nat → Nat → List Blk
  | [], _, _ => []
  | b :: rest, cur, a =>
      if cur = a then b :: rest
      else if cur < a then suffixFrom rest (cur + b.size) a else []

/-- First loop of find_fit (src/mm.c:402-407): walk forward from address `a`
while the header size is nonzero; stop with success at the first free block
whose size fits.  Returns the final value of `rover` and the found block
pointer. -/
def ffLoop1 : List Blk → Nat → Nat → Nat × Option Nat
  | [], _, a => (a, none)
  | b :: rest, asize, a =>
      if b.size = 0 then (a, none)
      else if b.alloc = false ∧ asize ≤ b.size then (a, some a)
      else ffLoop1 rest asize (a + b.size)

/-- Second loop of find_fit (src/mm.c:409-416): walk from `heap_listp`
(address 8, the prologue) while the address is below `oldrover`, with the
same fit test. -/
def ffLoop2 : List Blk → Nat → Nat → Nat → Option Nat
  | [], _, _, _ => none
  | b :: rest, asize, a, old =>
      if a < old then
        if b.alloc = false ∧ asize ≤ b.size then some a
        else ffLoop2 rest asize (a + b.size) old
      else none

/-- find_fit (src/mm.c:393-419): next-fit search.  The first loop starts at
`rover` and leaves `rover` where it stopped (the found block, or the epilogue
when the loop ran out); the second loop rescans from `heap_listp` up to (but
not including) the old `rover` without touching `rover`. -/
def find_fit (s : Heap) (asize : Nat) : Heap × Option Nat :=
  let oldrover := s.rover
  let r1 := ffLoop1 (suffixFrom (chain s) 8 oldrover) asize oldrover
  let s1 := { s with rover := r1.1 }
  match r1.2 with
  | some a => (s1, some a)
  | none => (s1, ffLoop2 (chain s) asize 8 oldrover)

/-- Adjusted block size of mm_malloc (src/mm.c:189-193): `2*DSIZE` when the
request is at most `DSIZE`, else `DSIZE * ((size + DSIZE + (DSIZE-1)) /
DSIZE)`.  The source computes this in 64-bit `size_t` arithmetic; this
unwrapped value, which the heap model uses throughout, agrees with the
source's for every request below `2^64 - 15` (`asizeOfSizeT_eq_asizeOf`);
see `asizeOfSizeT` for the computation with the wrap made explicit. -/
def asizeOf (size : Nat) : Nat :=
  if size ≤ DSIZE then 2 * DSIZE
  else DSIZE * ((size + DSIZE + (DSIZE - 1)) / DSIZE)

/-- The same adjusted-size computation with the source's `size_t` arithmetic
made explicit: on LP64 the sum `size + DSIZE + (DSIZE - 1)` of src/mm.c:192
is computed modulo 2^64 (the division and the multiplication by `DSIZE` then
stay below 2^64), so the 15 representable requests above `2^64 - 16` wrap and
the adjusted size collapses to 0 or 8, below the minimum block size. -/
def asizeOfSizeT (size : Nat) : Nat :=
  if size ≤ DSIZE then 2 * DSIZE
  else DSIZE * ((size + DSIZE + (DSIZE - 1)) % 2 ^ 64 / DSIZE)

/-- mm_malloc (src/mm.c:176-208): reject size 0; adjust the size; search; on
a fit, place there and return the block pointer; otherwise extend the heap by
`max(asize, CHUNKSIZE)` bytes and place in the extension; return NULL if the
extension fails. -/
def mm_malloc (s : Heap) (size : Nat) : Heap × Option Nat :=
  if size = 0 then (s, none)
  else
    let asize := asizeOf size
    let f := find_fit s asize
    match f.2 with
    | some bp => (place f.1 bp asize, some bp)
    | none =>
        let extendsize := max asize CHUNKSIZE
        match extend_heap f.1 (extendsize / WSIZE) with
        | none => (f.1, none)
        | some er => (place er.1 er.2 asize, some er.2)

/-- The `copy` byte count computed by mm_realloc (src/mm.c:252-255) in the
state after its mm_malloc call: the 8-byte word read at `oldptr -
SIZE_T_SIZE`, clamped to `size`.  `oldptr - 8` is 4 bytes before the old
block's header, so the read spans the previous block's footer word (low half)
and the old block's own header word (high half). -/
def reallocCopy (s1 : Heap) (oldptr size : Nat) : Nat :=
  let c := readSizeT s1 (oldptr - SIZE_T_SIZE)
  if size < c then size else c

/-- memcpy(newptr, oldptr, n) as called by mm_realloc (src/mm.c:257): the
destination is the payload start of the freshly allocated block and `n` never
exceeds its payload size there.  The source range may extend past the old
block's payload (that is the realloc bug; overlapping memcpy is undefined
behavior in C) and is modeled as read out of the pre-call byte image. -/
def memcpyBlock (s : Heap) (dst src n : Nat) : Heap :=
  match realIdxOfAddr s dst with
  | none => s
  | some j =>
      let b := s.blocks.getD j default
      let bytes := (List.range n).map (fun k => byteAt s (src + k))
      { s with blocks := s.blocks.set j { b with data := bytes ++ b.data.drop n } }

/-- mm_realloc (src/mm.c:233-260), statement for statement: first
`mm_malloc(size)` (NULL result, including the one `mm_malloc(0)` always
produces, returns NULL at once); then the dead `size == 0` branch that would
free the old block; then the copy with the miscomputed byte count, and the
free of the old block. -/
def mm_realloc (s : Heap) (oldptr size : Nat) : Heap × Option Nat :=
  let m := mm_malloc s size
  match m.2 with
  | none => (m.1, none)
  | some newptr =>
      if size = 0 then (mm_free m.1 oldptr, none)
      else
        let copy := reallocCopy m.1 oldptr size
        let s2 := memcpyBlock m.1 newptr oldptr copy
        (mm_free s2 oldptr, some newptr)

/-- mm_check (src/mm.c:271-335).  Its first statement,
`bool prev_alloc = !get_alloc(h)` with `h = firstHead`, runs `get_alloc`,
whose `assert(h)` (src/mm.c:105) fails whenever `firstHead` is NULL —
and nothing in mm.c ever assigns `firstHead`, so every run aborts there.
Past that point (unreachable in every run) the source immediately evaluates
the loop condition `get_size(h > 0)` (src/mm.c:280), which converts the
boolean `h > 0`, i.e. the integer 1, to a pointer and dereferences address 1:
undefined behavior, modeled as the failure it is. -/
def mm_check (s : Heap) : Except String Unit :=
  match s.firstHead with
  | none => .error "assert(h) in get_alloc failed: h = firstHead is NULL"
  | some _ => .error "get_size(h > 0) dereferences address 1"

/-- mm_init (src/mm.c:149-170): lay out padding, prologue and epilogue
(failing if even those 16 bytes exceed the provider's capacity), set
`heap_listp` and `rover` to the prologue's block pointer (address 8), then
extend the heap by CHUNKSIZE bytes; any failure is reported as failure. -/
def mm_init (cap : Nat) : Option Heap :=
  if cap < 4 * WSIZE then none
  else
    let s0 : Heap := ⟨[], 8, none, none, 0, cap⟩
    match extend_heap s0 (CHUNKSIZE / WSIZE) with
    | none => none
    | some er => some er.1

/-! The public operations and the reachable states. -/

/-- One public allocator call. -/
inductive Op where
  | malloc (n : Nat)
  | free (p : Nat)
  | realloc (p : Nat) (n : Nat)
  deriving Repr, DecidableEq

/-- Whether `p` is the payload pointer of a currently allocated block. -/
def isLive (s : Heap) (p : Nat) : Bool :=
  match blockAt s p with
  | some b => b.alloc
  | none => false

/-- Caller contract of the source (CS:APP malloc interface): free and realloc
take NULL or a pointer returned by malloc/realloc and not yet freed; anything
else is undefined behavior. -/
def validOp (s : Heap) : Op → Bool
  | .malloc _ => true
  | .free p => p == 0 || isLive s p
  | .realloc p _ => isLive s p

/-- The state after one public call (the returned pointer dropped). -/
def applyOp (s : Heap) : Op → Heap
  | .malloc n => (mm_malloc s n).1
  | .free p => mm_free s p
  | .realloc p n => (mm_realloc s p n).1

/-- Heap states reachable by mm_init followed by any sequence of contractual
public calls.  The capacity bound mirrors the bounded region provider
(memlib's heap is far below 2^32 bytes, so the source's 32-bit header words
never truncate a block size). -/
inductive Reachable : Heap → Prop
  | init (cap : Nat) (s : Heap) : cap < 2 ^ 32 → mm_init cap = some s →
      Reachable s
  | step (s : Heap) (op : Op) : Reachable s → validOp s op = true →
      Reachable (applyOp s op)

/-! Well-formedness invariant. -/

/-- A structurally sound block: size a positive multiple of the alignment
unit, at least the minimum block size `2 * DSIZE`, payload length matching
the boundary tags. -/
def blkOk (b : Blk) : Bool :=
  b.size % 8 == 0 && decide (16 ≤ b.size) && b.data.length == b.size - 8

def blocksOk (bs : List Blk) : Bool := bs.all blkOk

/-- No two address-adjacent blocks are both free. -/
def noAdjFreeB : List Blk → Bool
  | [] => true
  | [_] => true
  | a :: b :: rest => (a.alloc || b.alloc) && noAdjFreeB (b :: rest)

/-- The rover points at the prologue, a real block, or the epilogue. -/
def roverOkB (s : Heap) : Bool :=
  s.rover == 8
    || (List.range (s.blocks.length + 1)).any (fun k => blkAddr s.blocks k == s.rover)

/-- The allocator invariant maintained by every public operation. -/
def WF (s : Heap) : Prop :=
  blocksOk s.blocks = true ∧ noAdjFreeB s.blocks = true ∧ roverOkB s = true ∧
    s.freeHead = none ∧ s.firstHead = none ∧ s.num_freeblocks = 0 ∧
    heapSize s ≤ s.capacity ∧ s.capacity < 2 ^ 32

instance (s : Heap) : Decidable (WF s) := by unfold WF; infer_instance

/-! Specification-side definitions (from the spec's words, for comparison
with the source functions). -/

/-- The fit test of the search (spec 4.4): a FREE block whose size is at
least the requested size. -/
def fitB (asize : Nat) (b : Blk) : Bool := !b.alloc && decide (asize ≤ b.size)

/-- Spec 4.4, forward scan: the block pointer of the first free fitting block
(in address order, which is index order) at address at least `lo`. -/
def specFirstFitFrom (bs : List Blk) (lo asize : Nat) : Option Nat :=
  ((List.range bs.length).findIdx?
      (fun i => decide (lo ≤ blkAddr bs i) && fitB asize (bs.getD i default))).map
    (blkAddr bs)

/-- Spec 4.4, wrapped scan: the block pointer of the first free fitting block
strictly below address `hi`, scanning the real blocks from the first. -/
def specFirstFitBefore (bs : List Blk) (hi asize : Nat) : Option Nat :=
  ((List.range bs.length).findIdx?
      (fun i => decide (blkAddr bs i < hi) && fitB asize (bs.getD i default))).map
    (blkAddr bs)

/-- The usable (payload) size of the block at `p`: its span minus the 8 bytes
of header and footer — the `original_usable_size` of the spec's resize
description. -/
def usableSize (s : Heap) (p : Nat) : Nat :=
  match blockAt s p with
  | some b => b.size - 8
  | none => 0

/-! Concrete states for witnesses and counterexamples. -/

/-- The state after `mm_init` with a 1 MB provider: one free 4096-byte block,
rover at the prologue. -/
def sInit : Heap := (mm_init 1000000).getD default

/-- The state after additionally `mm_malloc 8`: an allocated 16-byte block at
address 16 and a free 4080-byte block at 32. -/
def sAlloc : Heap := (mm_malloc sInit 8).1


/-- A well-formed one-block heap whose single free block has size 32, for the
place-threshold counterexample. -/
def sSplit : Heap := ⟨[⟨32, false, List.replicate 24 0⟩], 16, none, none, 0, 1000000⟩

/-- The state after `mm_init` with a provider of exactly 4112 bytes: the
initial extension just fits and every further extension fails. -/
def sTight : Heap := (mm_init 4112).getD default

/-- One 16-byte block allocated at 16 out of `sTight`; any request above the
remaining 4080 free bytes must fail. -/
def sTight1 : Heap := (mm_malloc sTight 8).1

/-- A heap of two adjacent free blocks (as arises transiently inside mm_free
before coalescing) whose rover sits strictly inside the second block's span,
for the rover-fixup witness. -/
def sC8 : Heap :=
  ⟨[⟨16, false, List.replicate 8 0⟩, ⟨16, false, List.replicate 8 0⟩], 40, none, none, 0, 100⟩

/-- A small well-formed heap with one allocated and one free block, for the
next-fit search witness. -/
def sFit : Heap :=
  ⟨[⟨16, true, List.replicate 8 0⟩, ⟨24, false, List.replicate 16 0⟩], 16, none, none, 0, 100⟩

/-- A small well-formed heap with a recognizable payload pattern in the
allocated 16-byte block at 16 and a free 48-byte block at 32, for the realloc
copy-count and content theorems. -/
def sGrow : Heap :=
  ⟨[⟨16, true, [1, 2, 3, 4, 5, 6, 7, 8]⟩, ⟨48, false, List.replicate 40 0⟩],
    16, none, none, 0, 100⟩

/-! Basic facts about the invariant components. -/

theorem blkOk_iff {b : Blk} :
    blkOk b = true ↔ b.size % 8 = 0 ∧ 16 ≤ b.size ∧ b.data.length = b.size - 8 := by
  simp [blkOk, and_assoc]

theorem blocksOk_iff {bs : List Blk} :
    blocksOk bs = true ↔ ∀ b ∈ bs, blkOk b = true := by
  simp [blocksOk]

theorem noAdjFreeB_iff : ∀ (bs : List Blk),
    noAdjFreeB bs = true ↔
      ∀ k, k + 1 < bs.length →
        (bs.getD k default).alloc = true ∨ (bs.getD (k + 1) default).alloc = true
  | [] => by simp [noAdjFreeB]
  | [a] => by simp [noAdjFreeB]
  | a :: b :: rest => by
    rw [noAdjFreeB, Bool.and_eq_true, Bool.or_eq_true, noAdjFreeB_iff (b :: rest)]
    constructor
    · rintro ⟨hab, h⟩ k hk
      match k with
      | 0 => simpa using hab
      | k + 1 =>
        have hlen : k + 1 < (b :: rest).length := by
          simp at hk ⊢; omega
        simpa using h k hlen
    · intro h
      refine ⟨by simpa using h 0 (by simp), ?_⟩
      intro k hk
      have hlen : (k + 1) + 1 < (a :: b :: rest).length := by
        simp at hk ⊢; omega
      simpa using h (k + 1) hlen

theorem roverOkB_iff {s : Heap} :
    roverOkB s = true ↔
      s.rover = 8 ∨ ∃ k, k ≤ s.blocks.length ∧ blkAddr s.blocks k = s.rover := by
  simp [roverOkB, List.any_eq_true, List.mem_range, Nat.lt_succ_iff]

/-! Addresses of blocks. -/

@[simp] theorem sumSizes_nil : sumSizes ([] : List Blk) = 0 := rfl

@[simp] theorem sumSizes_cons (b : Blk) (bs : List Blk) :
    sumSizes (b :: bs) = b.size + sumSizes bs := by
  simp [sumSizes]

@[simp] theorem sumSizes_append (xs ys : List Blk) :
    sumSizes (xs ++ ys) = sumSizes xs + sumSizes ys := by
  simp [sumSizes]

@[simp] theorem blkAddr_zero (bs : List Blk) : blkAddr bs 0 = 16 := rfl

theorem getD_mem {α : Type} [Inhabited α] {l : List α} {n : Nat} (h : n < l.length) :
    l.getD n default ∈ l := by
  rw [List.getD_eq_getElem l default h]
  exact List.getElem_mem h

theorem blkAddr_succ {bs : List Blk} {k : Nat} (h : k < bs.length) :
    blkAddr bs (k + 1) = blkAddr bs k + (bs.getD k default).size := by
  unfold blkAddr
  rw [List.take_succ, sumSizes_append, List.getElem?_eq_getElem h,
    List.getD_eq_getElem bs default h]
  simp [sumSizes]
  omega

theorem blkAddr_add {bs : List Blk} {j k : Nat} (hjk : j ≤ k) :
    blkAddr bs k = blkAddr bs j + sumSizes ((bs.drop j).take (k - j)) := by
  have h : bs.take k = bs.take j ++ (bs.drop j).take (k - j) := by
    rw [← List.take_add]
    congr 1
    omega
  unfold blkAddr
  rw [h, sumSizes_append]
  omega

theorem blkAddr_mono {bs : List Blk} {j k : Nat} (hjk : j ≤ k) :
    blkAddr bs j ≤ blkAddr bs k := by
  rw [blkAddr_add hjk]; omega

theorem blkAddr_strict_mono {bs : List Blk} (hpos : ∀ b ∈ bs, 0 < b.size) :
    ∀ {j k : Nat}, j < k → k ≤ bs.length → blkAddr bs j < blkAddr bs k := by
  intro j k
  induction k with
  | zero => omega
  | succ k ih =>
    intro hj hk
    have hklen : k < bs.length := by omega
    have hsz : 0 < (bs.getD k default).size := hpos _ (getD_mem hklen)
    rcases Nat.lt_succ_iff_lt_or_eq.mp hj with h | h
    · exact lt_of_lt_of_le (ih h (by omega)) (by rw [blkAddr_succ hklen]; omega)
    · subst h; rw [blkAddr_succ hklen]; omega

theorem blkAddr_inj {bs : List Blk} (hpos : ∀ b ∈ bs, 0 < b.size) {j k : Nat}
    (hj : j ≤ bs.length) (hk : k ≤ bs.length) (h : blkAddr bs j = blkAddr bs k) :
    j = k := by
  rcases Nat.lt_trichotomy j k with hlt | heq | hgt
  · exact absurd h (Nat.ne_of_lt (blkAddr_strict_mono hpos hlt hk))
  · exact heq
  · exact absurd h.symm (Nat.ne_of_lt (blkAddr_strict_mono hpos hgt hj))

theorem realIdxOfAddr_eq_some {s : Heap} (hpos : ∀ b ∈ s.blocks, 0 < b.size)
    {p i : Nat} :
    realIdxOfAddr s p = some i ↔ i < s.blocks.length ∧ blkAddr s.blocks i = p := by
  constructor
  · intro h
    have h1 := List.find?_some h
    have h2 := List.mem_of_find?_eq_some h
    simp at h1 h2
    exact ⟨h2, h1⟩
  · rintro ⟨hi, hp⟩
    have hsome : (realIdxOfAddr s p).isSome := by
      rw [realIdxOfAddr, List.find?_isSome]
      exact ⟨i, by simpa using hi, by simpa using hp⟩
    obtain ⟨j, hj⟩ := Option.isSome_iff_exists.mp hsome
    have h1 := List.find?_some hj
    have h2 := List.mem_of_find?_eq_some hj
    simp at h1 h2
    rw [hj, blkAddr_inj hpos (by omega) (by omega) (h1.trans hp.symm)]

/-! Patch lemmas: every mutation of the block list performed by place,
coalesce and extend_heap replaces the slice `[l, r)` by a short list `mid`
whose sizes sum to the slice's sizes; these lemmas describe the patched
list. -/

theorem drop_eq_getD_cons {bs : List Blk} {i : Nat} (h : i < bs.length) :
    bs.drop i = bs.getD i default :: bs.drop (i + 1) := by
  rw [List.drop_eq_getElem_cons h, List.getD_eq_getElem bs default h]

theorem patch_decomp {bs : List Blk} {l r : Nat} (hlr : l ≤ r) (hr : r ≤ bs.length) :
    bs = bs.take l ++ (bs.drop l).take (r - l) ++ bs.drop r := by
  have h2 : bs.drop r = (bs.drop l).drop (r - l) := by
    rw [List.drop_drop]
    congr 1
    omega
  rw [List.append_assoc, h2, List.take_append_drop, List.take_append_drop]

theorem length_patch {bs mid : List Blk} {l r : Nat} (hlr : l ≤ r) (hr : r ≤ bs.length) :
    (bs.take l ++ mid ++ bs.drop r).length = l + mid.length + (bs.length - r) := by
  simp [List.length_append, List.length_take, List.length_drop]
  omega

theorem sumSizes_patch {bs mid : List Blk} {l r : Nat} (hlr : l ≤ r) (hr : r ≤ bs.length)
    (hsum : sumSizes mid = sumSizes ((bs.drop l).take (r - l))) :
    sumSizes (bs.take l ++ mid ++ bs.drop r) = sumSizes bs := by
  conv_rhs => rw [patch_decomp hlr hr]
  simp [sumSizes_append, hsum]

theorem getD_patch_lt {bs mid : List Blk} {l r k : Nat} (hk : k < l) (hl : l ≤ bs.length) :
    (bs.take l ++ mid ++ bs.drop r).getD k default = bs.getD k default := by
  have htl : (bs.take l).length = l := by simp; omega
  rw [List.append_assoc, List.getD_append _ _ default k (by omega)]
  rw [List.getD_eq_getElem _ default (by simp; omega), List.getD_eq_getElem _ default (by omega),
    List.getElem_take]

theorem getD_patch_mid {bs mid : List Blk} {l r k : Nat} (hl : l ≤ bs.length)
    (hk : k < mid.length) :
    (bs.take l ++ mid ++ bs.drop r).getD (l + k) default = mid.getD k default := by
  have htl : (bs.take l).length = l := by simp; omega
  rw [List.append_assoc, List.getD_append_right _ _ default (l + k) (by omega), htl,
    List.getD_append _ _ default (l + k - l) (by omega)]
  congr 1
  omega

theorem getD_patch_ge {bs mid : List Blk} {l r k : Nat} (hl : l ≤ bs.length)
    (hk : mid.length ≤ k) :
    (bs.take l ++ mid ++ bs.drop r).getD (l + k) default
      = bs.getD (r + (k - mid.length)) default := by
  have htl : (bs.take l).length = l := by simp; omega
  rw [List.append_assoc, List.getD_append_right _ _ default (l + k) (by omega), htl,
    List.getD_append_right _ _ default (l + k - l) (by simp; omega)]
  have h1 : l + k - l - mid.length = k - mid.length := by omega
  rw [h1]
  by_cases hin : r + (k - mid.length) < bs.length
  · rw [List.getD_eq_getElem _ default (by simp; omega), List.getD_eq_getElem _ default hin,
      List.getElem_drop]
  · rw [List.getD_eq_default _ default (by simp; omega),
      List.getD_eq_default _ default (by omega)]

theorem blkAddr_patch_le {bs mid : List Blk} {l r k : Nat} (hk : k ≤ l)
    (hl : l ≤ bs.length) :
    blkAddr (bs.take l ++ mid ++ bs.drop r) k = blkAddr bs k := by
  unfold blkAddr
  congr 2
  rw [List.append_assoc, List.take_append_of_le_length (by simp; omega),
    List.take_take]
  congr 1
  omega

theorem blkAddr_patch_mid_end {bs mid : List Blk} {l r : Nat} (hl : l ≤ bs.length) :
    blkAddr (bs.take l ++ mid ++ bs.drop r) (l + mid.length)
      = blkAddr bs l + sumSizes mid := by
  unfold blkAddr
  have htl : (bs.take l).length = l := by simp; omega
  have h1 : (bs.take l ++ mid ++ bs.drop r).take (l + mid.length) = bs.take l ++ mid := by
    rw [List.append_assoc, show l + mid.length = (bs.take l).length + mid.length by omega,
      List.take_append, List.take_left]
  rw [h1, sumSizes_append]
  omega

/-- Address one past the patched slice equals the old address of `r`, when the
sizes of `mid` sum to the replaced slice's sizes. -/
theorem blkAddr_patch_r {bs mid : List Blk} {l r : Nat} (hlr : l ≤ r) (hr : r ≤ bs.length)
    (hsum : sumSizes mid = sumSizes ((bs.drop l).take (r - l))) :
    blkAddr (bs.take l ++ mid ++ bs.drop r) (l + mid.length) = blkAddr bs r := by
  rw [@blkAddr_patch_mid_end bs mid l r (by omega), hsum, blkAddr_add hlr]

theorem blkAddr_patch_ge {bs mid : List Blk} {l r k : Nat} (hlr : l ≤ r)
    (hr : r ≤ bs.length) (hk : r ≤ k)
    (hsum : sumSizes mid = sumSizes ((bs.drop l).take (r - l))) :
    blkAddr (bs.take l ++ mid ++ bs.drop r) (l + mid.length + (k - r)) = blkAddr bs k := by
  have htl : (bs.take l).length = l := by simp; omega
  have hdrop : (bs.take l ++ mid ++ bs.drop r).drop (l + mid.length) = bs.drop r := by
    rw [List.append_assoc, show l + mid.length = (bs.take l).length + mid.length by omega,
      List.drop_append, List.drop_left]
  rw [blkAddr_add (Nat.le_add_right _ _), hdrop, blkAddr_patch_r hlr hr hsum,
    blkAddr_add hk]
  have h2 : l + mid.length + (k - r) - (l + mid.length) = k - r := by omega
  rw [h2]

theorem blocksOk_patch {bs mid : List Blk} {l r : Nat} (hok : blocksOk bs = true)
    (hmid : ∀ b ∈ mid, blkOk b = true) :
    blocksOk (bs.take l ++ mid ++ bs.drop r) = true := by
  rw [blocksOk_iff] at hok ⊢
  intro b hb
  rcases List.mem_append.mp hb with h | h
  · rcases List.mem_append.mp h with h2 | h2
    · exact hok b (List.mem_of_mem_take h2)
    · exact hmid b h2
  · exact hok b (List.mem_of_mem_drop h)

theorem noAdj_patch {bs mid : List Blk} {l r : Nat} (hlr : l ≤ r) (hr : r ≤ bs.length)
    (hmidlen : 0 < mid.length)
    (hpre : ∀ k, k + 1 < l →
      (bs.getD k default).alloc = true ∨ (bs.getD (k + 1) default).alloc = true)
    (hb1 : 0 < l →
      (bs.getD (l - 1) default).alloc = true ∨ (mid.getD 0 default).alloc = true)
    (hmid : ∀ k, k + 1 < mid.length →
      (mid.getD k default).alloc = true ∨ (mid.getD (k + 1) default).alloc = true)
    (hb2 : r < bs.length →
      (mid.getD (mid.length - 1) default).alloc = true ∨ (bs.getD r default).alloc = true)
    (hpost : ∀ k, r ≤ k → k + 1 < bs.length →
      (bs.getD k default).alloc = true ∨ (bs.getD (k + 1) default).alloc = true) :
    noAdjFreeB (bs.take l ++ mid ++ bs.drop r) = true := by
  rw [noAdjFreeB_iff]
  intro k hk
  rw [length_patch hlr hr] at hk
  by_cases h1 : k + 1 < l
  · rw [getD_patch_lt (by omega) (by omega), getD_patch_lt h1 (by omega)]
    exact hpre k h1
  by_cases h2 : k + 1 = l
  · rw [getD_patch_lt (by omega) (by omega),
      show k + 1 = l + 0 by omega, getD_patch_mid (by omega) hmidlen]
    have := hb1 (by omega)
    rw [show l - 1 = k by omega] at this
    exact this
  by_cases h3 : k + 1 < l + mid.length
  · rw [show k = l + (k - l) by omega, getD_patch_mid (by omega) (by omega),
      show l + (k - l) + 1 = l + (k - l + 1) by omega, getD_patch_mid (by omega) (by omega)]
    exact hmid (k - l) (by omega)
  by_cases h4 : k + 1 = l + mid.length
  · rw [show k = l + (mid.length - 1) by omega, getD_patch_mid (by omega) (by omega),
      show l + (mid.length - 1) + 1 = l + mid.length by omega,
      show (l + mid.length : Nat) = l + (mid.length + 0) by omega,
      getD_patch_ge (by omega) (by omega)]
    have hrlen : r < bs.length := by omega
    simpa using hb2 hrlen
  · have hk5 : l + mid.length ≤ k := by omega
    rw [show k = l + (mid.length + (k - l - mid.length)) by omega,
      getD_patch_ge (by omega) (by omega),
      show l + (mid.length + (k - l - mid.length)) + 1
        = l + (mid.length + (k - l - mid.length + 1)) by omega,
      getD_patch_ge (by omega) (by omega)]
    have e1 : mid.length + (k - l - mid.length) - mid.length = k - l - mid.length := by omega
    have e2 : mid.length + (k - l - mid.length + 1) - mid.length
        = k - l - mid.length + 1 := by omega
    rw [e1, e2]
    have := hpost (r + (k - l - mid.length)) (by omega) (by omega)
    rw [show r + (k - l - mid.length) + 1 = r + (k - l - mid.length + 1) by omega] at this
    exact this

theorem roverOk_patch {bs mid : List Blk} {l r rov : Nat}
    (hpos : ∀ b ∈ bs, 0 < b.size) (hlr : l ≤ r) (hr : r ≤ bs.length)
    (hsum : sumSizes mid = sumSizes ((bs.drop l).take (r - l)))
    (hrov : rov = 8 ∨ ∃ k, k ≤ bs.length ∧ blkAddr bs k = rov)
    (hout : rov ≤ blkAddr bs l ∨ blkAddr bs r ≤ rov) :
    rov = 8 ∨ ∃ k, k ≤ (bs.take l ++ mid ++ bs.drop r).length ∧
      blkAddr (bs.take l ++ mid ++ bs.drop r) k = rov := by
  rcases hrov with h8 | ⟨K, hK, hKa⟩
  · exact Or.inl h8
  right
  rcases hout with hle | hge
  · have hKl : K ≤ l := by
      by_contra hgt
      have := blkAddr_strict_mono hpos (show l < K by omega) hK
      omega
    exact ⟨K, by rw [length_patch hlr hr]; omega, by rw [blkAddr_patch_le hKl (by omega)]; exact hKa⟩
  · have hKr : r ≤ K := by
      by_contra hlt
      have := blkAddr_strict_mono hpos (show K < r by omega) hr
      omega
    refine ⟨l + mid.length + (K - r), by rw [length_patch hlr hr]; omega, ?_⟩
    rw [blkAddr_patch_ge hlr hr hKr hsum]
    exact hKa

/-! Case analysis of coalesce. -/

theorem coalesce_case1 {s : Heap} {i : Nat}
    (hprev : (if i = 0 then true else (s.blocks.getD (i - 1) default).alloc) = true)
    (hnext : (if i + 1 = s.blocks.length then true
      else (s.blocks.getD (i + 1) default).alloc) = true) :
    coalesce s i = (s, i) := by
  unfold coalesce
  simp only [hprev, hnext, Bool.and_self, if_true]

theorem coalesce_case2 {s : Heap} {i : Nat}
    (hprev : (if i = 0 then true else (s.blocks.getD (i - 1) default).alloc) = true)
    (hlen : i + 1 ≠ s.blocks.length)
    (hnfree : (s.blocks.getD (i + 1) default).alloc = false) :
    coalesce s i =
      mergeUpd s i (i + 2)
        (mergedBlk2 (s.blocks.getD i default) (s.blocks.getD (i + 1) default)) := by
  unfold coalesce mergeUpd
  simp only [hprev, if_neg hlen, hnfree, Bool.true_and, Bool.not_false, Bool.and_self,
    Bool.and_false, Bool.false_and, if_false, Bool.not_true, Bool.and_true,
    Bool.false_eq_true, if_true]

theorem coalesce_case3 {s : Heap} {i : Nat}
    (hi0 : i ≠ 0)
    (hpfree : (s.blocks.getD (i - 1) default).alloc = false)
    (hnext : (if i + 1 = s.blocks.length then true
      else (s.blocks.getD (i + 1) default).alloc) = true) :
    coalesce s i =
      mergeUpd s (i - 1) (i + 1)
        (mergedBlk2 (s.blocks.getD (i - 1) default) (s.blocks.getD i default)) := by
  unfold coalesce mergeUpd
  simp only [if_neg hi0, hpfree, hnext, Bool.true_and, Bool.not_false, Bool.and_self,
    Bool.and_false, Bool.false_and, if_false, Bool.not_true, Bool.and_true,
    Bool.false_eq_true, if_true]

theorem coalesce_case4 {s : Heap} {i : Nat}
    (hi0 : i ≠ 0)
    (hpfree : (s.blocks.getD (i - 1) default).alloc = false)
    (hlen : i + 1 ≠ s.blocks.length)
    (hnfree : (s.blocks.getD (i + 1) default).alloc = false) :
    coalesce s i =
      mergeUpd s (i - 1) (i + 2)
        (mergedBlk3 (s.blocks.getD (i - 1) default) (s.blocks.getD i default)
          (s.blocks.getD (i + 1) default)) := by
  unfold coalesce mergeUpd
  simp only [if_neg hi0, hpfree, if_neg hlen, hnfree, Bool.true_and, Bool.not_false,
    Bool.and_self, Bool.and_false, Bool.false_and, if_false, Bool.not_true, Bool.and_true,
    Bool.false_eq_true, if_true]

theorem mergeUpd_blocks (s : Heap) (l r : Nat) (m : Blk) :
    (mergeUpd s l r m).1.blocks = s.blocks.take l ++ [m] ++ s.blocks.drop r := by
  simp [mergeUpd]

theorem mergeUpd_idx (s : Heap) (l r : Nat) (m : Blk) : (mergeUpd s l r m).2 = l := rfl

theorem mergeUpd_globals (s : Heap) (l r : Nat) (m : Blk) :
    (mergeUpd s l r m).1.freeHead = s.freeHead ∧
      (mergeUpd s l r m).1.firstHead = s.firstHead ∧
      (mergeUpd s l r m).1.num_freeblocks = s.num_freeblocks ∧
      (mergeUpd s l r m).1.capacity = s.capacity := by
  simp [mergeUpd]

theorem mergeUpd_rover {s : Heap} {l r : Nat} {m : Blk} (hl : l ≤ s.blocks.length) :
    (mergeUpd s l r m).1.rover =
      if blkAddr s.blocks l < s.rover ∧ s.rover < blkAddr s.blocks l + m.size
      then blkAddr s.blocks l else s.rover := by
  have h1 : blkAddr (s.blocks.take l ++ [m] ++ s.blocks.drop r) l = blkAddr s.blocks l :=
    blkAddr_patch_le (Nat.le_refl l) hl
  have h2 : (s.blocks.take l ++ [m] ++ s.blocks.drop r).getD l default = m := by
    have := @getD_patch_mid s.blocks [m] l r 0 hl (by simp)
    simpa using this
  have h3 : s.blocks.take l ++ m :: s.blocks.drop r
      = s.blocks.take l ++ [m] ++ s.blocks.drop r := by simp
  unfold mergeUpd
  simp only [h3, h1, h2]

/-- Full description of coalesce on a heap whose block `i` is free and whose
only possibly-adjacent-free pairs involve `i`: either both neighbors are
allocated and the state is returned untouched (case 1), or a slice `[l, r)`
containing `i` merges into one well-formed free block whose boundary
neighbors (when they exist) are allocated. -/
theorem coalesce_spec {s : Heap} {i : Nat}
    (hok : blocksOk s.blocks = true)
    (hi : i < s.blocks.length)
    (hfree : (s.blocks.getD i default).alloc = false)
    (hpairs : ∀ k, k + 1 < s.blocks.length → k ≠ i → k + 1 ≠ i →
      (s.blocks.getD k default).alloc = true ∨
        (s.blocks.getD (k + 1) default).alloc = true) :
    (coalesce s i = (s, i) ∧
      (0 < i → (s.blocks.getD (i - 1) default).alloc = true) ∧
      (i + 1 < s.blocks.length → (s.blocks.getD (i + 1) default).alloc = true)) ∨
    (∃ l r m, l ≤ i ∧ i < r ∧ r ≤ s.blocks.length ∧
      coalesce s i = mergeUpd s l r m ∧
      m.alloc = false ∧
      m.size = sumSizes ((s.blocks.drop l).take (r - l)) ∧
      blkOk m = true ∧
      (∀ k, l ≤ k → k < r → (s.blocks.getD k default).alloc = false) ∧
      (0 < l → (s.blocks.getD (l - 1) default).alloc = true) ∧
      (r < s.blocks.length → (s.blocks.getD r default).alloc = true)) := by
  have hbok := blkOk_iff.mp (blocksOk_iff.mp hok _ (getD_mem hi))
  by_cases hp : (if i = 0 then true else (s.blocks.getD (i - 1) default).alloc) = true
  · by_cases hn : (if i + 1 = s.blocks.length then true
        else (s.blocks.getD (i + 1) default).alloc) = true
    · left
      refine ⟨coalesce_case1 hp hn, ?_, ?_⟩
      · intro h0; rw [if_neg (by omega)] at hp; exact hp
      · intro h1; rw [if_neg (by omega)] at hn; exact hn
    · right
      have hlen : i + 1 ≠ s.blocks.length := by
        intro h; rw [if_pos h] at hn; exact hn rfl
      have hi1 : i + 1 < s.blocks.length := by omega
      have hnfree : (s.blocks.getD (i + 1) default).alloc = false := by
        rw [if_neg hlen] at hn
        revert hn; cases (s.blocks.getD (i + 1) default).alloc <;> simp
      have hn1ok := blkOk_iff.mp (blocksOk_iff.mp hok _ (getD_mem hi1))
      have hslice : (s.blocks.drop i).take (i + 2 - i)
          = [s.blocks.getD i default, s.blocks.getD (i + 1) default] := by
        rw [show i + 2 - i = 2 by omega, drop_eq_getD_cons hi, drop_eq_getD_cons hi1]
        simp
      refine ⟨i, i + 2, _, Nat.le_refl i, by omega, by omega,
        coalesce_case2 hp hlen hnfree, rfl, ?_, ?_, ?_, ?_, ?_⟩
      · rw [hslice]; simp [mergedBlk2]
      · rw [blkOk_iff]
        refine ⟨by simp only [mergedBlk2]; omega, by simp only [mergedBlk2]; omega, ?_⟩
        simp only [mergedBlk2, le4, List.length_append, List.length_cons, List.length_nil]
        omega
      · intro k hk1 hk2
        rcases show k = i ∨ k = i + 1 by omega with he | he <;> rw [he]
        · exact hfree
        · exact hnfree
      · intro h0; rw [if_neg (by omega)] at hp; exact hp
      · intro h2
        have := hpairs (i + 1) (by omega) (by omega) (by omega)
        rw [hnfree] at this
        simpa using this
  · have hi0 : i ≠ 0 := by intro h; rw [if_pos h] at hp; exact hp rfl
    have hpfree : (s.blocks.getD (i - 1) default).alloc = false := by
      rw [if_neg hi0] at hp
      revert hp; cases (s.blocks.getD (i - 1) default).alloc <;> simp
    have him1 : i - 1 < s.blocks.length := by omega
    have hpok := blkOk_iff.mp (blocksOk_iff.mp hok _ (getD_mem him1))
    by_cases hn : (if i + 1 = s.blocks.length then true
        else (s.blocks.getD (i + 1) default).alloc) = true
    · right
      have hslice : (s.blocks.drop (i - 1)).take (i + 1 - (i - 1))
          = [s.blocks.getD (i - 1) default, s.blocks.getD i default] := by
        rw [show i + 1 - (i - 1) = 2 by omega, drop_eq_getD_cons him1,
          show i - 1 + 1 = i by omega, drop_eq_getD_cons hi]
        simp
      refine ⟨i - 1, i + 1, _, by omega, by omega, by omega,
        coalesce_case3 hi0 hpfree hn, rfl, ?_, ?_, ?_, ?_, ?_⟩
      · rw [hslice]; simp [mergedBlk2]
      · rw [blkOk_iff]
        refine ⟨by simp only [mergedBlk2]; omega, by simp only [mergedBlk2]; omega, ?_⟩
        simp only [mergedBlk2, le4, List.length_append, List.length_cons, List.length_nil]
        omega
      · intro k hk1 hk2
        rcases show k = i - 1 ∨ k = i by omega with he | he <;> rw [he]
        · exact hpfree
        · exact hfree
      · intro h0
        have := hpairs (i - 1 - 1) (by omega) (by omega) (by omega)
        rw [show i - 1 - 1 + 1 = i - 1 by omega, hpfree] at this
        simpa using this
      · intro h2; rw [if_neg (by omega)] at hn; exact hn
    · right
      have hlen : i + 1 ≠ s.blocks.length := by
        intro h; rw [if_pos h] at hn; exact hn rfl
      have hi1 : i + 1 < s.blocks.length := by omega
      have hnfree : (s.blocks.getD (i + 1) default).alloc = false := by
        rw [if_neg hlen] at hn
        revert hn; cases (s.blocks.getD (i + 1) default).alloc <;> simp
      have hn1ok := blkOk_iff.mp (blocksOk_iff.mp hok _ (getD_mem hi1))
      have hslice : (s.blocks.drop (i - 1)).take (i + 2 - (i - 1))
          = [s.blocks.getD (i - 1) default, s.blocks.getD i default,
              s.blocks.getD (i + 1) default] := by
        rw [show i + 2 - (i - 1) = 3 by omega, drop_eq_getD_cons him1,
          show i - 1 + 1 = i by omega, drop_eq_getD_cons hi, drop_eq_getD_cons hi1]
        simp
      refine ⟨i - 1, i + 2, _, by omega, by omega, by omega,
        coalesce_case4 hi0 hpfree hlen hnfree, rfl, ?_, ?_, ?_, ?_, ?_⟩
      · rw [hslice]; simp [mergedBlk3]; omega
      · rw [blkOk_iff]
        refine ⟨by simp only [mergedBlk3]; omega, by simp only [mergedBlk3]; omega, ?_⟩
        simp only [mergedBlk3, le4, List.length_append, List.length_cons, List.length_nil]
        omega
      · intro k hk1 hk2
        rcases show k = i - 1 ∨ k = i ∨ k = i + 1 by omega with he | he | he <;> rw [he]
        · exact hpfree
        · exact hfree
        · exact hnfree
      · intro h0
        have := hpairs (i - 1 - 1) (by omega) (by omega) (by omega)
        rw [show i - 1 - 1 + 1 = i - 1 by omega, hpfree] at this
        simpa using this
      · intro h2
        have := hpairs (i + 1) (by omega) (by omega) (by omega)
        rw [hnfree] at this
        simpa using this

/-! The next-fit search. -/

theorem fitB_iff {asize : Nat} {b : Blk} :
    fitB asize b = true ↔ b.alloc = false ∧ asize ≤ b.size := by
  simp [fitB]

theorem fitB_eq_false {asize : Nat} {b : Blk}
    (h : ¬(b.alloc = false ∧ asize ≤ b.size)) : fitB asize b = false := by
  revert h
  cases hfit : fitB asize b
  · simp
  · rw [fitB_iff] at hfit
    intro h
    exact absurd hfit h

/-- Walking the chain from address `cur` reaches exactly the suffix starting
at the block whose address is `cur + sumSizes (l.take K)`. -/
theorem suffixFrom_drop : ∀ (K : Nat) (l : List Blk) (cur : Nat), K ≤ l.length →
    (∀ b ∈ l.take K, 0 < b.size) →
    suffixFrom l cur (cur + sumSizes (l.take K)) = l.drop K
  | 0, l, cur, _, _ => by
    cases l with
    | nil => simp [suffixFrom]
    | cons b rest => simp [suffixFrom]
  | K + 1, l, cur, hK, hpos => by
    cases l with
    | nil => simp at hK
    | cons b rest =>
      have hb : 0 < b.size := hpos b (by simp)
      rw [List.take_succ_cons] at hpos ⊢
      rw [sumSizes_cons]
      rw [suffixFrom]
      rw [if_neg (by omega), if_pos (by omega)]
      have := suffixFrom_drop K rest (cur + b.size) (by simpa using hK)
        (fun b2 hb2 => hpos b2 (by simp [hb2]))
      rw [show cur + (b.size + sumSizes (rest.take K))
        = cur + b.size + sumSizes (rest.take K) by omega]
      exact this

/-- First loop of find_fit, characterized: starting at block index `t`, it
returns the first free fitting block at or after `t` and leaves the rover on
it, or reaches the epilogue, leaving the rover there, when no block at or
after `t` fits. -/
theorem ffLoop1_char (bs : List Blk) (asize : Nat) (hpos : ∀ b ∈ bs, 0 < b.size) :
    ∀ t, t ≤ bs.length →
      (∃ m, t ≤ m ∧ m < bs.length ∧ fitB asize (bs.getD m default) = true ∧
        (∀ j, t ≤ j → j < m → fitB asize (bs.getD j default) = false) ∧
        ffLoop1 (bs.drop t ++ [epiBlk]) asize (blkAddr bs t)
          = (blkAddr bs m, some (blkAddr bs m))) ∨
      ((∀ j, t ≤ j → j < bs.length → fitB asize (bs.getD j default) = false) ∧
        ffLoop1 (bs.drop t ++ [epiBlk]) asize (blkAddr bs t)
          = (blkAddr bs bs.length, none)) := by
  suffices h : ∀ fuel t, bs.length - t = fuel → t ≤ bs.length →
      (∃ m, t ≤ m ∧ m < bs.length ∧ fitB asize (bs.getD m default) = true ∧
        (∀ j, t ≤ j → j < m → fitB asize (bs.getD j default) = false) ∧
        ffLoop1 (bs.drop t ++ [epiBlk]) asize (blkAddr bs t)
          = (blkAddr bs m, some (blkAddr bs m))) ∨
      ((∀ j, t ≤ j → j < bs.length → fitB asize (bs.getD j default) = false) ∧
        ffLoop1 (bs.drop t ++ [epiBlk]) asize (blkAddr bs t)
          = (blkAddr bs bs.length, none)) by
    intro t ht
    exact h (bs.length - t) t rfl ht
  intro fuel
  induction fuel with
  | zero =>
    intro t hn ht
    have ht' : t = bs.length := by omega
    subst ht'
    right
    refine ⟨fun j h1 h2 => by omega, ?_⟩
    rw [List.drop_length]
    simp [ffLoop1, epiBlk]
  | succ fuel ih =>
    intro t hn ht
    have htlen : t < bs.length := by omega
    have hb : 0 < (bs.getD t default).size := hpos _ (getD_mem htlen)
    rw [drop_eq_getD_cons htlen, List.cons_append, ffLoop1]
    rw [if_neg (by omega)]
    by_cases hfit : (bs.getD t default).alloc = false ∧ asize ≤ (bs.getD t default).size
    · left
      exact ⟨t, Nat.le_refl t, htlen, fitB_iff.mpr hfit, fun j h1 h2 => by omega,
        by rw [if_pos hfit]⟩
    · rw [if_neg hfit, ← blkAddr_succ htlen]
      rcases ih (t + 1) (by omega) (by omega) with ⟨m, h1, h2, h3, h4, h5⟩ | ⟨h1, h2⟩
      · left
        refine ⟨m, by omega, h2, h3, ?_, h5⟩
        intro j hj1 hj2
        rcases Nat.eq_or_lt_of_le hj1 with he | hlt
        · rw [← he]; exact fitB_eq_false hfit
        · exact h4 j hlt hj2
      · right
        refine ⟨?_, h2⟩
        intro j hj1 hj2
        rcases Nat.eq_or_lt_of_le hj1 with he | hlt
        · rw [← he]; exact fitB_eq_false hfit
        · exact h1 j hlt hj2

/-- Second loop of find_fit, characterized: starting at index `t`, it scans
while the address is strictly below `old` and returns the first free fitting
block found, or nothing. -/
theorem ffLoop2_char (bs : List Blk) (asize old : Nat) (hpos : ∀ b ∈ bs, 0 < b.size)
    (hold : old ≤ blkAddr bs bs.length) :
    ∀ t, t ≤ bs.length →
      (∃ m, t ≤ m ∧ m < bs.length ∧ blkAddr bs m < old ∧
        fitB asize (bs.getD m default) = true ∧
        (∀ j, t ≤ j → j < m → fitB asize (bs.getD j default) = false) ∧
        ffLoop2 (bs.drop t ++ [epiBlk]) asize (blkAddr bs t) old
          = some (blkAddr bs m)) ∨
      ((∀ j, t ≤ j → j < bs.length → blkAddr bs j < old →
          fitB asize (bs.getD j default) = false) ∧
        ffLoop2 (bs.drop t ++ [epiBlk]) asize (blkAddr bs t) old = none) := by
  suffices h : ∀ fuel t, bs.length - t = fuel → t ≤ bs.length →
      (∃ m, t ≤ m ∧ m < bs.length ∧ blkAddr bs m < old ∧
        fitB asize (bs.getD m default) = true ∧
        (∀ j, t ≤ j → j < m → fitB asize (bs.getD j default) = false) ∧
        ffLoop2 (bs.drop t ++ [epiBlk]) asize (blkAddr bs t) old
          = some (blkAddr bs m)) ∨
      ((∀ j, t ≤ j → j < bs.length → blkAddr bs j < old →
          fitB asize (bs.getD j default) = false) ∧
        ffLoop2 (bs.drop t ++ [epiBlk]) asize (blkAddr bs t) old = none) by
    intro t ht
    exact h (bs.length - t) t rfl ht
  intro fuel
  induction fuel with
  | zero =>
    intro t hn ht
    have ht' : t = bs.length := by omega
    subst ht'
    right
    refine ⟨fun j h1 h2 => by omega, ?_⟩
    rw [List.drop_length]
    simp only [ffLoop2, List.nil_append]
    rw [if_neg (by omega)]
  | succ fuel ih =>
    intro t hn ht
    have htlen : t < bs.length := by omega
    rw [drop_eq_getD_cons htlen, List.cons_append, ffLoop2]
    by_cases haddr : blkAddr bs t < old
    · rw [if_pos haddr]
      by_cases hfit : (bs.getD t default).alloc = false ∧ asize ≤ (bs.getD t default).size
      · left
        exact ⟨t, Nat.le_refl t, htlen, haddr, fitB_iff.mpr hfit,
          fun j h1 h2 => by omega, by rw [if_pos hfit]⟩
      · rw [if_neg hfit, ← blkAddr_succ htlen]
        rcases ih (t + 1) (by omega) (by omega) with
          ⟨m, h1, h2, h3, h4, h5, h6⟩ | ⟨h1, h2⟩
        · left
          refine ⟨m, by omega, h2, h3, h4, ?_, h6⟩
          intro j hj1 hj2
          rcases Nat.eq_or_lt_of_le hj1 with he | hlt
          · rw [← he]; exact fitB_eq_false hfit
          · exact h5 j hlt hj2
        · right
          refine ⟨?_, h2⟩
          intro j hj1 hj2 hj3
          rcases Nat.eq_or_lt_of_le hj1 with he | hlt
          · rw [← he]; exact fitB_eq_false hfit
          · exact h1 j hlt hj2 hj3
    · rw [if_neg haddr]
      right
      refine ⟨?_, rfl⟩
      intro j hj1 hj2 hj3
      have := @blkAddr_mono bs _ _ hj1
      omega

theorem blkAddr_le_iff {bs : List Blk} (hpos : ∀ b ∈ bs, 0 < b.size) {j k : Nat}
    (hj : j ≤ bs.length) (hk : k ≤ bs.length) :
    blkAddr bs k ≤ blkAddr bs j ↔ k ≤ j := by
  constructor
  · intro h
    by_contra hgt
    have := blkAddr_strict_mono hpos (show j < k by omega) hk
    omega
  · exact blkAddr_mono

theorem chain_drop {s : Heap} {K : Nat} (hK : K ≤ s.blocks.length) :
    (chain s).drop (K + 1) = s.blocks.drop K ++ [epiBlk] := by
  rw [chain, List.cons_append, List.drop_succ_cons, List.drop_append_of_le_length hK]

theorem chain_take_sum {s : Heap} {K : Nat} (hK : K ≤ s.blocks.length) :
    8 + sumSizes ((chain s).take (K + 1)) = blkAddr s.blocks K := by
  rw [chain, List.cons_append, List.take_succ_cons, List.take_append_of_le_length hK,
    sumSizes_cons]
  unfold blkAddr
  simp [proBlk]
  omega

theorem chain_take_pos {s : Heap} (hpos : ∀ b ∈ s.blocks, 0 < b.size) {K : Nat}
    (hK : K ≤ s.blocks.length) :
    ∀ b ∈ (chain s).take (K + 1), 0 < b.size := by
  rw [chain, List.cons_append, List.take_succ_cons, List.take_append_of_le_length hK]
  intro b hb
  rcases List.mem_cons.mp hb with h | h
  · rw [h]; exact Nat.zero_lt_succ _
  · exact hpos b (List.mem_of_mem_take h)

/-- Full behavior of find_fit on a well-formed heap: the heap's blocks and
globals are untouched; the forward scan returns the first free fitting block
at or past the cursor and leaves the cursor on it; when the forward scan runs
out at the epilogue (leaving the cursor there), the wrapped scan returns the
first free fitting block below the old cursor position; otherwise the search
fails. -/
theorem find_fit_char {s : Heap} {asize : Nat} (hwf : WF s) :
    (find_fit s asize).1.blocks = s.blocks ∧
    (find_fit s asize).1.freeHead = s.freeHead ∧
    (find_fit s asize).1.firstHead = s.firstHead ∧
    (find_fit s asize).1.num_freeblocks = s.num_freeblocks ∧
    (find_fit s asize).1.capacity = s.capacity ∧
    roverOkB (find_fit s asize).1 = true ∧
    ((∃ m, m < s.blocks.length ∧ s.rover ≤ blkAddr s.blocks m ∧
        fitB asize (s.blocks.getD m default) = true ∧
        (∀ j, j < s.blocks.length → s.rover ≤ blkAddr s.blocks j → j < m →
          fitB asize (s.blocks.getD j default) = false) ∧
        (find_fit s asize).2 = some (blkAddr s.blocks m) ∧
        (find_fit s asize).1.rover = blkAddr s.blocks m) ∨
      ((∀ j, j < s.blocks.length → s.rover ≤ blkAddr s.blocks j →
          fitB asize (s.blocks.getD j default) = false) ∧
        (find_fit s asize).1.rover = blkAddr s.blocks s.blocks.length ∧
        ((∃ m, m < s.blocks.length ∧ blkAddr s.blocks m < s.rover ∧
            fitB asize (s.blocks.getD m default) = true ∧
            (∀ j, j < m → fitB asize (s.blocks.getD j default) = false) ∧
            (find_fit s asize).2 = some (blkAddr s.blocks m)) ∨
          ((∀ j, j < s.blocks.length → blkAddr s.blocks j < s.rover →
              fitB asize (s.blocks.getD j default) = false) ∧
            (find_fit s asize).2 = none)))) := by
  obtain ⟨hok, hnadj, hrov, hfh, hfh2, hnum, hcap, hcap2⟩ := hwf
  have hpos : ∀ b ∈ s.blocks, 0 < b.size := fun b hb => by
    have := blkOk_iff.mp (blocksOk_iff.mp hok b hb); omega
  -- the start index of the forward scan and the corresponding suffix
  have hstart : ∃ t0, t0 ≤ s.blocks.length ∧
      (∀ j, j ≤ s.blocks.length → (s.rover ≤ blkAddr s.blocks j ↔ t0 ≤ j)) ∧
      (s.rover ≤ blkAddr s.blocks t0) ∧
      ffLoop1 (suffixFrom (chain s) 8 s.rover) asize s.rover
        = ffLoop1 (s.blocks.drop t0 ++ [epiBlk]) asize (blkAddr s.blocks t0) := by
    rcases roverOkB_iff.mp hrov with h8 | ⟨K, hK, hKa⟩
    · refine ⟨0, Nat.zero_le _, ?_, ?_, ?_⟩
      · intro j hj
        rw [h8]
        unfold blkAddr
        constructor <;> intro <;> omega
      · rw [h8]; unfold blkAddr; omega
      · rw [h8]
        have hsfx : suffixFrom (chain s) 8 8 = proBlk :: (s.blocks ++ [epiBlk]) := by
          rw [chain, List.cons_append, suffixFrom, if_pos rfl]
        rw [hsfx, ffLoop1, if_neg (by simp [proBlk]), if_neg (by simp [proBlk])]
        simp [proBlk, blkAddr, sumSizes]
    · refine ⟨K, hK, ?_, by rw [← hKa], ?_⟩
      · intro j hj
        rw [← hKa]
        exact blkAddr_le_iff hpos hj hK
      · have hsfx : suffixFrom (chain s) 8 s.rover = s.blocks.drop K ++ [epiBlk] := by
          rw [← hKa, ← chain_take_sum hK, suffixFrom_drop (K + 1) (chain s) 8
            (by simp [chain]; omega) (chain_take_pos hpos hK), chain_drop hK]
        rw [hsfx, ← hKa]
  obtain ⟨t0, ht0, hiff, ht0r, hflip⟩ := hstart
  rcases ffLoop1_char s.blocks asize hpos t0 ht0 with
    ⟨m, hm1, hm2, hm3, hm4, hm5⟩ | ⟨hno, heq⟩
  · -- forward scan succeeds
    have e : find_fit s asize
        = ({ s with rover := blkAddr s.blocks m }, some (blkAddr s.blocks m)) := by
      unfold find_fit
      simp only [hflip, hm5]
    rw [e]
    refine ⟨rfl, rfl, rfl, rfl, rfl, ?_, ?_⟩
    · rw [roverOkB_iff]
      right
      refine ⟨m, ?_, rfl⟩
      show m ≤ s.blocks.length
      omega
    · left
      refine ⟨m, hm2, le_trans ht0r (blkAddr_mono hm1), hm3, ?_, rfl, rfl⟩
      intro j hj hjr hjm
      exact hm4 j ((hiff j (by omega)).mp hjr) hjm
  · -- forward scan reaches the epilogue
    have e : find_fit s asize
        = ({ s with rover := blkAddr s.blocks s.blocks.length },
            ffLoop2 (chain s) asize 8 s.rover) := by
      unfold find_fit
      simp only [hflip, heq]
    have hnofit : ∀ j, j < s.blocks.length → s.rover ≤ blkAddr s.blocks j →
        fitB asize (s.blocks.getD j default) = false := by
      intro j hj hjr
      exact hno j ((hiff j (by omega)).mp hjr) hj
    rw [e]
    refine ⟨rfl, rfl, rfl, rfl, rfl, ?_, ?_⟩
    · rw [roverOkB_iff]
      right
      exact ⟨s.blocks.length, Nat.le_refl _, rfl⟩
    · right
      refine ⟨hnofit, rfl, ?_⟩
      by_cases h8 : 8 < s.rover
      · have hold : s.rover ≤ blkAddr s.blocks s.blocks.length := by
          rcases roverOkB_iff.mp hrov with h | ⟨K, hK, hKa⟩
          · unfold blkAddr; omega
          · rw [← hKa]; exact blkAddr_mono hK
        have e2 : ffLoop2 (chain s) asize 8 s.rover
            = ffLoop2 (s.blocks.drop 0 ++ [epiBlk]) asize (blkAddr s.blocks 0) s.rover := by
          rw [chain, List.cons_append, ffLoop2, if_pos h8, if_neg (by simp [proBlk])]
          simp [proBlk, blkAddr, sumSizes]
        rw [e2]
        rcases ffLoop2_char s.blocks asize s.rover hpos hold 0 (Nat.zero_le _) with
          ⟨m, _, hm2, hm3, hm4, hm5, hm6⟩ | ⟨hno2, heq2⟩
        · left
          exact ⟨m, hm2, hm3, hm4, fun j hj => hm5 j (Nat.zero_le _) hj, hm6⟩
        · right
          refine ⟨fun j hj hjr => hno2 j (Nat.zero_le _) hj hjr, heq2⟩
      · have e2 : ffLoop2 (chain s) asize 8 s.rover = none := by
          rw [chain, List.cons_append, ffLoop2, if_neg h8]
        right
        refine ⟨?_, e2⟩
        intro j hj hjr
        unfold blkAddr at hjr
        omega

/-! Preservation of the invariant, operation by operation. -/

theorem set_eq_patch {bs : List Blk} {i : Nat} (hi : i < bs.length) (v : Blk) :
    bs.set i v = bs.take i ++ [v] ++ bs.drop (i + 1) := by
  rw [List.set_eq_take_cons_drop v hi]
  simp

theorem getD_set_patch {bs : List Blk} {i : Nat} (hi : i < bs.length) (v : Blk)
    (k : Nat) :
    (bs.set i v).getD k default = if k = i then v else bs.getD k default := by
  rw [set_eq_patch hi v]
  by_cases hk : k < i
  · rw [getD_patch_lt hk (by omega), if_neg (by omega)]
  · by_cases hk2 : k = i
    · subst hk2
      have h := @getD_patch_mid bs [v] k (k + 1) 0 (by omega) (by simp)
      simp only [Nat.add_zero] at h
      rw [h]
      simp
    · rw [show k = i + (1 + (k - i - 1)) by omega,
        @getD_patch_ge bs [v] i (i + 1) (1 + (k - i - 1)) (by omega) (by simp),
        if_neg (by omega)]
      congr 1
      simp
      omega

theorem blkAddr_set {bs : List Blk} {i : Nat} (hi : i < bs.length) {v : Blk}
    (hsz : v.size = (bs.getD i default).size) (k : Nat) :
    blkAddr (bs.set i v) k = blkAddr bs k := by
  have hsum : sumSizes [v] = sumSizes ((bs.drop i).take (i + 1 - i)) := by
    rw [show i + 1 - i = 1 by omega, drop_eq_getD_cons hi]
    simp [sumSizes, hsz]
  rw [set_eq_patch hi v]
  by_cases hk : k ≤ i
  · exact blkAddr_patch_le hk (by omega)
  · by_cases hk2 : k ≤ bs.length
    · have h := @blkAddr_patch_ge bs [v] i (i + 1) k (by omega) (by omega) (by omega) hsum
      simp only [List.length_singleton] at h
      rw [show i + 1 + (k - (i + 1)) = k by omega] at h
      exact h
    · unfold blkAddr
      have h1 : (bs.take i ++ [v] ++ bs.drop (i + 1)).take k
          = bs.take i ++ [v] ++ bs.drop (i + 1) := by
        apply List.take_of_length_le
        rw [length_patch (by omega) (by omega)]
        simp only [List.length_singleton]
        omega
      have h2 : bs.take k = bs := List.take_of_length_le (by omega)
      rw [h1, h2, sumSizes_patch (by omega) (by omega) hsum]

theorem sumSizes_set {bs : List Blk} {i : Nat} (hi : i < bs.length) {v : Blk}
    (hsz : v.size = (bs.getD i default).size) :
    sumSizes (bs.set i v) = sumSizes bs := by
  have hsum : sumSizes [v] = sumSizes ((bs.drop i).take (i + 1 - i)) := by
    rw [show i + 1 - i = 1 by omega, drop_eq_getD_cons hi]
    simp [sumSizes, hsz]
  rw [set_eq_patch hi v]
  exact sumSizes_patch (by omega) (by omega) hsum

theorem wf_mergeUpd {s : Heap} {l r i : Nat} {m : Blk}
    (hok : blocksOk s.blocks = true)
    (hrov : roverOkB s = true)
    (hl : l ≤ i) (hir : i < r) (hr : r ≤ s.blocks.length)
    (hmok : blkOk m = true) (hmfree : m.alloc = false)
    (hsum : m.size = sumSizes ((s.blocks.drop l).take (r - l)))
    (hb1 : 0 < l → (s.blocks.getD (l - 1) default).alloc = true)
    (hb2 : r < s.blocks.length → (s.blocks.getD r default).alloc = true)
    (hpairs : ∀ k, k + 1 < s.blocks.length → k ≠ i → k + 1 ≠ i →
      (s.blocks.getD k default).alloc = true ∨
        (s.blocks.getD (k + 1) default).alloc = true) :
    blocksOk (mergeUpd s l r m).1.blocks = true ∧
    noAdjFreeB (mergeUpd s l r m).1.blocks = true ∧
    roverOkB (mergeUpd s l r m).1 = true ∧
    sumSizes (mergeUpd s l r m).1.blocks = sumSizes s.blocks := by
  have hpos : ∀ b ∈ s.blocks, 0 < b.size := fun b hb => by
    have := blkOk_iff.mp (blocksOk_iff.mp hok b hb); omega
  have hone : sumSizes [m] = m.size := by simp [sumSizes]
  have hsum' : sumSizes [m] = sumSizes ((s.blocks.drop l).take (r - l)) :=
    hone.trans hsum
  have hblocks := mergeUpd_blocks s l r m
  have hrv := @mergeUpd_rover s l r m (by omega)
  refine ⟨?_, ?_, ?_, ?_⟩
  · rw [hblocks]
    exact blocksOk_patch hok (by intro b hb; simp at hb; rw [hb]; exact hmok)
  · rw [hblocks]
    refine noAdj_patch (by omega) hr (by simp) ?_ ?_ ?_ ?_ ?_
    · intro k hk
      exact hpairs k (by omega) (by omega) (by omega)
    · intro h0
      exact Or.inl (hb1 h0)
    · intro k hk; simp at hk
    · intro hrlen
      exact Or.inr (hb2 hrlen)
    · intro k hk1 hk2
      exact hpairs k hk2 (by omega) (by omega)
  · rw [roverOkB_iff, hrv, hblocks]
    by_cases hfix : blkAddr s.blocks l < s.rover ∧
        s.rover < blkAddr s.blocks l + m.size
    · rw [if_pos hfix]
      right
      refine ⟨l, by rw [length_patch (by omega) hr]; omega, ?_⟩
      exact blkAddr_patch_le (Nat.le_refl l) (by omega)
    · rw [if_neg hfix]
      have haddr_r : blkAddr s.blocks r = blkAddr s.blocks l + m.size := by
        rw [blkAddr_add (show l ≤ r by omega), hsum]
      exact roverOk_patch hpos (by omega) hr hsum' (roverOkB_iff.mp hrov)
        (by omega)
  · rw [hblocks]
    exact sumSizes_patch (by omega) hr hsum'

theorem wf_free {s : Heap} (hwf : WF s) (p : Nat) :
    WF (mm_free s p) ∧
    (mm_free s p).freeHead = s.freeHead ∧
    (mm_free s p).firstHead = s.firstHead ∧
    (mm_free s p).num_freeblocks = s.num_freeblocks ∧
    (mm_free s p).capacity = s.capacity ∧
    heapSize (mm_free s p) = heapSize s := by
  obtain ⟨hok, hnadj, hrov, hfh, hfh2, hnum, hcap, hcap2⟩ := hwf
  have hpos : ∀ b ∈ s.blocks, 0 < b.size := fun b hb => by
    have := blkOk_iff.mp (blocksOk_iff.mp hok b hb); omega
  rw [mm_free]
  by_cases h0 : p = 0
  · rw [if_pos h0]
    exact ⟨⟨hok, hnadj, hrov, hfh, hfh2, hnum, hcap, hcap2⟩, rfl, rfl, rfl, rfl, rfl⟩
  · rw [if_neg h0]
    cases hidx : realIdxOfAddr s p with
    | none =>
      exact ⟨⟨hok, hnadj, hrov, hfh, hfh2, hnum, hcap, hcap2⟩, rfl, rfl, rfl, rfl, rfl⟩
    | some i =>
      have hi : i < s.blocks.length := ((realIdxOfAddr_eq_some hpos).mp hidx).1
      simp only [hidx]
      set b := s.blocks.getD i default with hb
      set s1 : Heap := { s with blocks := s.blocks.set i { b with alloc := false } }
        with hs1
      have hlen1 : s1.blocks.length = s.blocks.length := by
        simp [hs1, List.length_set]
      have hget1 : ∀ k, s1.blocks.getD k default
          = if k = i then { b with alloc := false } else s.blocks.getD k default := by
        intro k
        simp only [hs1]
        exact getD_set_patch hi _ k
      have hok1 : blocksOk s1.blocks = true := by
        rw [blocksOk_iff]
        intro x hx
        simp only [hs1] at hx
        rcases List.mem_or_eq_of_mem_set hx with hmem | he
        · exact blocksOk_iff.mp hok x hmem
        · rw [he, blkOk_iff]
          have := blkOk_iff.mp (blocksOk_iff.mp hok b (getD_mem hi))
          simpa using this
      have hpos1 : ∀ x ∈ s1.blocks, 0 < x.size := fun x hx => by
        have := blkOk_iff.mp (blocksOk_iff.mp hok1 x hx); omega
      have haddr1 : ∀ k, blkAddr s1.blocks k = blkAddr s.blocks k := by
        intro k
        simp only [hs1]
        exact @blkAddr_set s.blocks i hi { b with alloc := false } rfl k
      have hsum1 : sumSizes s1.blocks = sumSizes s.blocks := by
        simp only [hs1]
        exact @sumSizes_set s.blocks i hi { b with alloc := false } rfl
      have hrov1 : roverOkB s1 = true := by
        rw [roverOkB_iff]
        rcases roverOkB_iff.mp hrov with h8 | ⟨K, hK, hKa⟩
        · left; exact h8
        · right; exact ⟨K, by rw [hlen1]; exact hK, by rw [haddr1]; exact hKa⟩
      have hfree1 : (s1.blocks.getD i default).alloc = false := by
        rw [hget1, if_pos rfl]
      have hpairs1 : ∀ k, k + 1 < s1.blocks.length → k ≠ i → k + 1 ≠ i →
          (s1.blocks.getD k default).alloc = true ∨
            (s1.blocks.getD (k + 1) default).alloc = true := by
        intro k hk hk1 hk2
        rw [hget1, hget1, if_neg hk1, if_neg hk2]
        rw [hlen1] at hk
        exact (noAdjFreeB_iff s.blocks).mp hnadj k hk
      rcases coalesce_spec hok1 (by omega) hfree1 hpairs1 with
        ⟨heq, hprev, hnext⟩ | ⟨l, r, m, hl, hir, hr, heq, hmfree, hmsum, hmok, _, hb1, hb2⟩
      · -- case 1: no merge
        rw [heq]
        have hnadj1 : noAdjFreeB s1.blocks = true := by
          rw [noAdjFreeB_iff]
          intro k hk
          by_cases hki : k + 1 = i
          · left
            rw [hget1, if_neg (by omega)]
            have := hprev (by omega)
            rw [hget1, if_neg (by omega)] at this
            rw [show k = i - 1 by omega]
            exact this
          · by_cases hki2 : k = i
            · right
              rw [hget1, if_neg (by omega)]
              have := hnext (by rw [hlen1] at hk; omega)
              rw [hget1, if_neg (by omega)] at this
              rw [show k + 1 = i + 1 by omega]
              exact this
            · exact hpairs1 k hk hki2 hki
        refine ⟨⟨hok1, hnadj1, hrov1, hfh, hfh2, hnum, ?_, hcap2⟩, rfl, rfl, rfl, rfl, ?_⟩
        · show 16 + sumSizes s1.blocks ≤ s.capacity
          rw [hsum1]
          exact hcap
        · show 16 + sumSizes s1.blocks = 16 + sumSizes s.blocks
          rw [hsum1]
      · -- merge
        rw [heq]
        have hmu := wf_mergeUpd hok1 hrov1 hl hir (by omega) hmok hmfree hmsum hb1 hb2
          hpairs1
        obtain ⟨hg1, hg2, hg3, hg4⟩ := mergeUpd_globals s1 l r m
        refine ⟨⟨hmu.1, hmu.2.1, hmu.2.2.1, by rw [hg1]; exact hfh, by rw [hg2]; exact hfh2,
          by rw [hg3]; exact hnum, ?_, by rw [hg4]; exact hcap2⟩, by rw [hg1],
          by rw [hg2], by rw [hg3], by rw [hg4],
          ?_⟩
        · show 16 + sumSizes (mergeUpd s1 l r m).1.blocks ≤ (mergeUpd s1 l r m).1.capacity
          rw [hmu.2.2.2, hsum1, hg4]
          exact hcap
        · show 16 + sumSizes (mergeUpd s1 l r m).1.blocks = 16 + sumSizes s.blocks
          rw [hmu.2.2.2, hsum1]

theorem place_spec {s : Heap} {i asize : Nat}
    (hpos : ∀ b ∈ s.blocks, 0 < b.size)
    (hi : i < s.blocks.length) :
    place s (blkAddr s.blocks i) asize =
      (if DSIZE * 2 ≤ (s.blocks.getD i default).size - asize then
        { s with
            blocks := s.blocks.take i
              ++ [Blk.mk asize true ((s.blocks.getD i default).data.take (asize - 8)),
                  Blk.mk ((s.blocks.getD i default).size - asize) false
                    ((s.blocks.getD i default).data.drop asize)]
              ++ s.blocks.drop (i + 1) }
      else
        { s with
            blocks := s.blocks.set i
              (Blk.mk (s.blocks.getD i default).size true
                (s.blocks.getD i default).data) }) := by
  have hidx : realIdxOfAddr s (blkAddr s.blocks i) = some i :=
    (realIdxOfAddr_eq_some hpos).mpr ⟨hi, rfl⟩
  unfold place
  rw [hidx]
  split
  next heq => exact absurd heq (by simp)
  next j heq =>
    injection heq with hj
    subst hj
    dsimp only
    split <;> simp

theorem wf_place {s : Heap} {i asize : Nat} (hwf : WF s)
    (hi : i < s.blocks.length)
    (hfree : (s.blocks.getD i default).alloc = false)
    (hmod : asize % 8 = 0) (hmin : 16 ≤ asize)
    (hfit : asize ≤ (s.blocks.getD i default).size) :
    WF (place s (blkAddr s.blocks i) asize) ∧
    (place s (blkAddr s.blocks i) asize).rover = s.rover ∧
    (place s (blkAddr s.blocks i) asize).freeHead = s.freeHead ∧
    (place s (blkAddr s.blocks i) asize).firstHead = s.firstHead ∧
    (place s (blkAddr s.blocks i) asize).num_freeblocks = s.num_freeblocks ∧
    (place s (blkAddr s.blocks i) asize).capacity = s.capacity ∧
    heapSize (place s (blkAddr s.blocks i) asize) = heapSize s ∧
    i < (place s (blkAddr s.blocks i) asize).blocks.length ∧
    blkAddr (place s (blkAddr s.blocks i) asize).blocks i = blkAddr s.blocks i ∧
    ((place s (blkAddr s.blocks i) asize).blocks.getD i default).alloc = true ∧
    asize ≤ ((place s (blkAddr s.blocks i) asize).blocks.getD i default).size := by
  obtain ⟨hok, hnadj, hrov, hfh, hfh2, hnum, hcap, hcap2⟩ := hwf
  have hpos : ∀ b ∈ s.blocks, 0 < b.size := fun b hb => by
    have := blkOk_iff.mp (blocksOk_iff.mp hok b hb); omega
  have hbok := blkOk_iff.mp (blocksOk_iff.mp hok _ (getD_mem hi))
  rw [place_spec hpos hi]
  have hout : s.rover = 8 ∨ s.rover ≤ blkAddr s.blocks i ∨
      blkAddr s.blocks (i + 1) ≤ s.rover := by
    rcases roverOkB_iff.mp hrov with h8 | ⟨K, hK, hKa⟩
    · exact Or.inl h8
    · right
      rcases le_or_lt K i with h | h
      · exact Or.inl (by rw [← hKa]; exact blkAddr_mono h)
      · exact Or.inr (by rw [← hKa]; exact blkAddr_mono h)
  split
  case isTrue hsplit =>
    unfold DSIZE at hsplit
    set A : Blk := Blk.mk asize true ((s.blocks.getD i default).data.take (asize - 8))
      with hA
    set R : Blk := Blk.mk ((s.blocks.getD i default).size - asize) false
      ((s.blocks.getD i default).data.drop asize) with hR
    have hsum2 : sumSizes [A, R] = sumSizes ((s.blocks.drop i).take (i + 1 - i)) := by
      rw [show i + 1 - i = 1 by omega, drop_eq_getD_cons hi]
      simp only [hA, hR, sumSizes, List.take_succ_cons, List.take_zero, List.map_cons,
        List.map_nil, List.sum_cons, List.sum_nil]
      omega
    have hAok : blkOk A = true := by
      rw [blkOk_iff]
      refine ⟨?_, ?_, ?_⟩
      · show asize % 8 = 0
        exact hmod
      · show 16 ≤ asize
        exact hmin
      · show ((s.blocks.getD i default).data.take (asize - 8)).length = asize - 8
        rw [List.length_take]
        omega
    have hRok : blkOk R = true := by
      rw [blkOk_iff]
      refine ⟨?_, ?_, ?_⟩
      · show ((s.blocks.getD i default).size - asize) % 8 = 0
        omega
      · show 16 ≤ (s.blocks.getD i default).size - asize
        omega
      · show ((s.blocks.getD i default).data.drop asize).length
            = (s.blocks.getD i default).size - asize - 8
        rw [List.length_drop]
        omega
    have hnext : i + 1 < s.blocks.length →
        (s.blocks.getD (i + 1) default).alloc = true := by
      intro h
      have := (noAdjFreeB_iff s.blocks).mp hnadj i h
      rw [hfree] at this
      simpa using this
    refine ⟨⟨?_, ?_, ?_, hfh, hfh2, hnum, ?_, hcap2⟩, rfl, rfl, rfl, rfl, rfl, ?_, ?_, ?_,
      ?_, ?_⟩
    · exact blocksOk_patch hok (by
        intro x hx
        rcases List.mem_cons.mp hx with h | h
        · rw [h]; exact hAok
        · simp at h; rw [h]; exact hRok)
    · refine noAdj_patch (by omega) (by omega) (by simp) ?_ ?_ ?_ ?_ ?_
      · intro k hk
        exact (noAdjFreeB_iff s.blocks).mp hnadj k (by omega)
      · intro h0
        right
        simp [hA]
      · intro k hk
        simp at hk
        rw [show k = 0 by omega]
        left
        simp [hA]
      · intro hrlen
        right
        exact hnext hrlen
      · intro k hk1 hk2
        exact (noAdjFreeB_iff s.blocks).mp hnadj k hk2
    · show roverOkB { s with blocks := _ } = true
      rw [roverOkB_iff]
      rcases hout with h8 | hlohi
      · exact Or.inl h8
      · exact roverOk_patch hpos (by omega) (by omega) hsum2 (roverOkB_iff.mp hrov)
          (by rcases hlohi with h | h
              · exact Or.inl h
              · right
                rw [blkAddr_add (show i ≤ i + 1 by omega), ← hsum2] at h
                rw [blkAddr_add (show i ≤ i + 1 by omega), ← hsum2]
                exact h)
    · show 16 + sumSizes _ ≤ s.capacity
      rw [sumSizes_patch (by omega) (by omega) hsum2]
      exact hcap
    · show 16 + sumSizes _ = 16 + sumSizes s.blocks
      rw [sumSizes_patch (by omega) (by omega) hsum2]
    · show i < _
      rw [length_patch (by omega) (by omega)]
      simp
      omega
    · exact blkAddr_patch_le (Nat.le_refl i) (by omega)
    · have h := @getD_patch_mid s.blocks [A, R] i (i + 1) 0 (by omega) (by simp)
      simp only [Nat.add_zero] at h
      rw [h]
      simp [hA]
    · have h := @getD_patch_mid s.blocks [A, R] i (i + 1) 0 (by omega) (by simp)
      simp only [Nat.add_zero] at h
      rw [h]
      show asize ≤ asize
      exact Nat.le_refl asize
  case isFalse hsplit =>
    set B : Blk := Blk.mk (s.blocks.getD i default).size true
      (s.blocks.getD i default).data with hB
    have hBok : blkOk B = true := by
      rw [blkOk_iff]
      exact ⟨hbok.1, hbok.2.1, hbok.2.2⟩
    have hget : ∀ k, (s.blocks.set i B).getD k default
        = if k = i then B else s.blocks.getD k default := getD_set_patch hi B
    refine ⟨⟨?_, ?_, ?_, hfh, hfh2, hnum, ?_, hcap2⟩, rfl, rfl, rfl, rfl, rfl, ?_, ?_, ?_,
      ?_, ?_⟩
    · rw [blocksOk_iff]
      intro x hx
      rcases List.mem_or_eq_of_mem_set hx with hmem | he
      · exact blocksOk_iff.mp hok x hmem
      · rw [he]; exact hBok
    · rw [noAdjFreeB_iff]
      intro k hk
      rw [List.length_set] at hk
      rw [hget, hget]
      by_cases hk1 : k = i
      · left; rw [if_pos hk1]
      · by_cases hk2 : k + 1 = i
        · right; rw [if_pos hk2]
        · rw [if_neg hk1, if_neg hk2]
          exact (noAdjFreeB_iff s.blocks).mp hnadj k hk
    · rw [roverOkB_iff]
      rcases roverOkB_iff.mp hrov with h8 | ⟨K, hK, hKa⟩
      · exact Or.inl h8
      · right
        refine ⟨K, by rw [List.length_set]; exact hK, ?_⟩
        rw [@blkAddr_set s.blocks i hi B rfl K]
        exact hKa
    · show 16 + sumSizes _ ≤ s.capacity
      rw [@sumSizes_set s.blocks i hi B rfl]
      exact hcap
    · show 16 + sumSizes _ = 16 + sumSizes s.blocks
      rw [@sumSizes_set s.blocks i hi B rfl]
    · show i < _
      rw [List.length_set]
      exact hi
    · exact @blkAddr_set s.blocks i hi B rfl i
    · rw [hget, if_pos rfl]
    · rw [hget, if_pos rfl]
      exact hfit

theorem blkAddr_append_le {bs ext : List Blk} {k : Nat} (hk : k ≤ bs.length) :
    blkAddr (bs ++ ext) k = blkAddr bs k := by
  unfold blkAddr
  rw [List.take_append_of_le_length hk]

theorem wf_extend {s : Heap} (hwf : WF s) {words : Nat} (heven : words % 2 = 0)
    (hmin : 16 ≤ words * 4) :
    extend_heap s words = none ∨
    (∃ s' bp, extend_heap s words = some (s', bp) ∧ WF s' ∧
      s'.freeHead = s.freeHead ∧ s'.firstHead = s.firstHead ∧
      s'.num_freeblocks = s.num_freeblocks ∧ s'.capacity = s.capacity ∧
      heapSize s' = heapSize s + words * 4 ∧
      ∃ j, j + 1 = s'.blocks.length ∧ bp = blkAddr s'.blocks j ∧
        (s'.blocks.getD j default).alloc = false ∧
        words * 4 ≤ (s'.blocks.getD j default).size) := by
  obtain ⟨hok, hnadj, hrov, hfh, hfh2, hnum, hcap, hcap2⟩ := hwf
  have hpos : ∀ b ∈ s.blocks, 0 < b.size := fun b hb => by
    have := blkOk_iff.mp (blocksOk_iff.mp hok b hb); omega
  set nb : Blk := Blk.mk (words * 4) false (List.replicate (words * 4 - 8) 0) with hnb
  set s1 : Heap := { s with blocks := s.blocks ++ [nb] } with hs1
  have heq0 : extend_heap s words
      = if s.capacity < heapSize s + words * 4 then none
        else some ((coalesce s1 s.blocks.length).1,
          blkAddr (coalesce s1 s.blocks.length).1.blocks
            (coalesce s1 s.blocks.length).2) := by
    unfold extend_heap
    simp only [if_neg (show ¬words % 2 = 1 by omega)]
    rfl
  rw [heq0]
  by_cases hcap3 : s.capacity < heapSize s + words * 4
  · left
    rw [if_pos hcap3]
  right
  rw [if_neg hcap3]
  have hlen1 : s1.blocks.length = s.blocks.length + 1 := by
    simp [hs1]
  have hget1lt : ∀ k, k < s.blocks.length →
      s1.blocks.getD k default = s.blocks.getD k default := by
    intro k hk
    simp only [hs1]
    exact List.getD_append _ _ default k hk
  have hget1last : s1.blocks.getD s.blocks.length default = nb := by
    simp only [hs1]
    rw [List.getD_append_right _ _ default _ (Nat.le_refl _)]
    simp
  have hnbok : blkOk nb = true := by
    rw [blkOk_iff]
    refine ⟨?_, ?_, ?_⟩
    · show (words * 4) % 8 = 0
      omega
    · show 16 ≤ words * 4
      exact hmin
    · show (List.replicate (words * 4 - 8) 0).length = words * 4 - 8
      exact List.length_replicate _ _
  have hok1 : blocksOk s1.blocks = true := by
    rw [blocksOk_iff]
    intro x hx
    simp only [hs1] at hx
    rcases List.mem_append.mp hx with h | h
    · exact blocksOk_iff.mp hok x h
    · simp at h
      rw [h]
      exact hnbok
  have hpos1 : ∀ x ∈ s1.blocks, 0 < x.size := fun x hx => by
    have := blkOk_iff.mp (blocksOk_iff.mp hok1 x hx); omega
  have haddr1 : ∀ k, k ≤ s.blocks.length → blkAddr s1.blocks k = blkAddr s.blocks k := by
    intro k hk
    simp only [hs1]
    exact blkAddr_append_le hk
  have hsum1 : sumSizes s1.blocks = sumSizes s.blocks + words * 4 := by
    simp only [hs1]
    rw [sumSizes_append]
    simp [sumSizes, hnb]
  have hrov1 : roverOkB s1 = true := by
    rw [roverOkB_iff]
    rcases roverOkB_iff.mp hrov with h8 | ⟨K, hK, hKa⟩
    · left; exact h8
    · right
      exact ⟨K, by omega, by rw [haddr1 K hK]; exact hKa⟩
  have hfree1 : (s1.blocks.getD s.blocks.length default).alloc = false := by
    rw [hget1last]
  have hpairs1 : ∀ k, k + 1 < s1.blocks.length → k ≠ s.blocks.length →
      k + 1 ≠ s.blocks.length →
      (s1.blocks.getD k default).alloc = true ∨
        (s1.blocks.getD (k + 1) default).alloc = true := by
    intro k hk hk1 hk2
    rw [hlen1] at hk
    rw [hget1lt k (by omega), hget1lt (k + 1) (by omega)]
    exact (noAdjFreeB_iff s.blocks).mp hnadj k (by omega)
  rcases coalesce_spec hok1 (by omega) hfree1 hpairs1 with
    ⟨heq, hprev, hnext⟩ | ⟨l, r, m, hl, hir, hr, heq, hmfree, hmsum, hmok, hslice, hb1, hb2⟩
  · -- no merge: the new block stands alone
    rw [heq]
    have hnadj1 : noAdjFreeB s1.blocks = true := by
      rw [noAdjFreeB_iff]
      intro k hk
      rw [hlen1] at hk
      by_cases hklast : k + 1 = s.blocks.length
      · left
        rw [hget1lt k (by omega)]
        have := hprev (by omega)
        rw [hget1lt (s.blocks.length - 1) (by omega)] at this
        rw [show k = s.blocks.length - 1 by omega]
        exact this
      · rw [hget1lt k (by omega), hget1lt (k + 1) (by omega)]
        exact (noAdjFreeB_iff s.blocks).mp hnadj k (by omega)
    refine ⟨s1, blkAddr s1.blocks s.blocks.length, rfl,
      ⟨hok1, hnadj1, hrov1, hfh, hfh2, hnum, ?_, hcap2⟩, rfl, rfl, rfl, rfl, ?_,
      s.blocks.length, by omega, rfl, hfree1, ?_⟩
    · show 16 + sumSizes s1.blocks ≤ s.capacity
      rw [hsum1]
      unfold heapSize at hcap3
      omega
    · show 16 + sumSizes s1.blocks = 16 + sumSizes s.blocks + words * 4
      rw [hsum1]
      omega
    · rw [hget1last]
  · -- the new block merges with a trailing free block
    have hrlen : r = s.blocks.length + 1 := by omega
    rw [heq]
    have hmu := wf_mergeUpd hok1 hrov1 hl hir (by omega) hmok hmfree hmsum hb1 hb2 hpairs1
    obtain ⟨hg1, hg2, hg3, hg4⟩ := mergeUpd_globals s1 l r m
    have hblocks2 := mergeUpd_blocks s1 l r m
    have hlen2 : (mergeUpd s1 l r m).1.blocks.length = l + 1 := by
      rw [hblocks2, length_patch (by omega) (by omega)]
      simp
      omega
    have hgetl : (mergeUpd s1 l r m).1.blocks.getD l default = m := by
      rw [hblocks2]
      have h := @getD_patch_mid s1.blocks [m] l r 0 (by omega) (by simp)
      simp only [Nat.add_zero] at h
      rw [h]
      rfl
    have hEsize : words * 4 ≤ m.size := by
      have h1 : blkAddr s1.blocks r = blkAddr s1.blocks l + m.size := by
        rw [blkAddr_add (show l ≤ r by omega), hmsum]
      have h2 : blkAddr s1.blocks (s.blocks.length + 1)
          = blkAddr s1.blocks s.blocks.length + (s1.blocks.getD s.blocks.length default).size := by
        exact blkAddr_succ (by omega)
      have h3 : blkAddr s1.blocks l ≤ blkAddr s1.blocks s.blocks.length :=
        blkAddr_mono (by omega)
      rw [hget1last] at h2
      have h4 : nb.size = words * 4 := rfl
      rw [hrlen] at h1
      omega
    refine ⟨(mergeUpd s1 l r m).1,
      blkAddr (mergeUpd s1 l r m).1.blocks (mergeUpd s1 l r m).2, rfl,
      ⟨hmu.1, hmu.2.1, hmu.2.2.1, by rw [hg1]; exact hfh, by rw [hg2]; exact hfh2,
        by rw [hg3]; exact hnum, ?_, by rw [hg4]; exact hcap2⟩,
      by rw [hg1], by rw [hg2], by rw [hg3], by rw [hg4], ?_, l, ?_, ?_, ?_, ?_⟩
    · show 16 + sumSizes (mergeUpd s1 l r m).1.blocks ≤ (mergeUpd s1 l r m).1.capacity
      rw [hmu.2.2.2, hsum1, hg4]
      have hc : s1.capacity = s.capacity := rfl
      rw [hc]
      unfold heapSize at hcap3
      omega
    · show 16 + sumSizes (mergeUpd s1 l r m).1.blocks = 16 + sumSizes s.blocks + words * 4
      rw [hmu.2.2.2, hsum1]
      omega
    · omega
    · rw [mergeUpd_idx]
    · rw [hgetl]
      exact hmfree
    · rw [hgetl]
      exact hEsize

theorem asizeOf_facts (n : Nat) :
    asizeOf n % 8 = 0 ∧ 16 ≤ asizeOf n ∧ n + 8 ≤ asizeOf n := by
  unfold asizeOf DSIZE
  split <;> omega

theorem wf_malloc {s : Heap} (hwf : WF s) (n : Nat) :
    WF (mm_malloc s n).1 ∧
    (mm_malloc s n).1.freeHead = s.freeHead ∧
    (mm_malloc s n).1.firstHead = s.firstHead ∧
    (mm_malloc s n).1.num_freeblocks = s.num_freeblocks ∧
    (mm_malloc s n).1.capacity = s.capacity ∧
    (∀ q, (mm_malloc s n).2 = some q →
      ∃ j, j < (mm_malloc s n).1.blocks.length ∧
        q = blkAddr (mm_malloc s n).1.blocks j ∧
        ((mm_malloc s n).1.blocks.getD j default).alloc = true ∧
        n + 8 ≤ ((mm_malloc s n).1.blocks.getD j default).size) := by
  by_cases h0 : n = 0
  · subst h0
    have e : mm_malloc s 0 = (s, none) := by unfold mm_malloc; rw [if_pos rfl]
    rw [e]
    exact ⟨hwf, rfl, rfl, rfl, rfl, fun q hq => by simp at hq⟩
  obtain ⟨hasz1, hasz2, hasz3⟩ := asizeOf_facts n
  have hmeq : mm_malloc s n
      = match (find_fit s (asizeOf n)).2 with
        | some bp => (place (find_fit s (asizeOf n)).1 bp (asizeOf n), some bp)
        | none =>
          match extend_heap (find_fit s (asizeOf n)).1
              (max (asizeOf n) CHUNKSIZE / WSIZE) with
          | none => ((find_fit s (asizeOf n)).1, none)
          | some er => (place er.1 er.2 (asizeOf n), some er.2) := by
    unfold mm_malloc
    rw [if_neg h0]
  obtain ⟨hb, hf1, hf2, hf3, hf4, hrovf, hmain⟩ := @find_fit_char s (asizeOf n) hwf
  obtain ⟨hok, hnadj, hrov, hfh, hfh2, hnum, hcap, hcap2⟩ := hwf
  have hwfF : WF (find_fit s (asizeOf n)).1 := by
    refine ⟨by rw [hb]; exact hok, by rw [hb]; exact hnadj, hrovf, by rw [hf1]; exact hfh,
      by rw [hf2]; exact hfh2, by rw [hf3]; exact hnum, ?_, by rw [hf4]; exact hcap2⟩
    show 16 + sumSizes (find_fit s (asizeOf n)).1.blocks ≤ _
    rw [hb, hf4]
    exact hcap
  have hfound : (∃ m, m < s.blocks.length ∧
      fitB (asizeOf n) (s.blocks.getD m default) = true ∧
      (find_fit s (asizeOf n)).2 = some (blkAddr s.blocks m)) ∨
      (find_fit s (asizeOf n)).2 = none := by
    rcases hmain with ⟨m, hm1, hm2, hm3, hm4, hm5, hm6⟩ | ⟨hnof, hrve, hwrap⟩
    · exact Or.inl ⟨m, hm1, hm3, hm5⟩
    · rcases hwrap with ⟨m, hw1, hw2, hw3, hw4, hw5⟩ | ⟨hnow, hnone⟩
      · exact Or.inl ⟨m, hw1, hw3, hw5⟩
      · exact Or.inr hnone
  rcases hfound with ⟨m, hm1, hmfit, hmres⟩ | hnone
  · -- a fitting free block was found; place the request there
    rw [hmeq, hmres]
    dsimp only
    have hmfit' := fitB_iff.mp hmfit
    have haddr : blkAddr s.blocks m
        = blkAddr (find_fit s (asizeOf n)).1.blocks m := by rw [hb]
    have hp := wf_place hwfF (by rw [hb]; exact hm1)
      (by rw [hb]; exact hmfit'.1) hasz1 hasz2 (by rw [hb]; exact hmfit'.2)
    rw [haddr]
    obtain ⟨hpwf, hprov, hpf1, hpf2, hpf3, hpf4, hphs, hplen, hpaddr, hpalloc, hpsize⟩ := hp
    refine ⟨hpwf, by rw [hpf1, hf1], by rw [hpf2, hf2], by rw [hpf3, hf3],
      by rw [hpf4, hf4], ?_⟩
    intro q hq
    simp only [Option.some_inj] at hq
    refine ⟨m, hplen, ?_, hpalloc, by omega⟩
    rw [hpaddr, ← hq]
  · -- no fit: extend the heap
    rw [hmeq, hnone]
    dsimp only
    have hC : CHUNKSIZE = 4096 := rfl
    have hW : WSIZE = 4 := rfl
    set w : Nat := max (asizeOf n) CHUNKSIZE / WSIZE with hw
    have hweven : w % 2 = 0 := by
      rw [hw, hC, hW]
      omega
    have hwmin : 16 ≤ w * 4 := by
      rw [hw, hC, hW]
      omega
    have hwasize : asizeOf n ≤ w * 4 := by
      rw [hw, hC, hW]
      omega
    rcases wf_extend hwfF hweven hwmin with hnone2 |
      ⟨s', bp, hsome, hwf', he1, he2, he3, he4, hhs, j, hj1, hj2, hj3, hj4⟩
    · rw [hnone2]
      dsimp only
      exact ⟨hwfF, by rw [hf1], by rw [hf2], by rw [hf3], by rw [hf4],
        fun q hq => by simp at hq⟩
    · rw [hsome]
      dsimp only
      have hp := wf_place hwf' (show j < s'.blocks.length by omega) hj3 hasz1 hasz2
        (by omega)
      rw [hj2]
      obtain ⟨hpwf, hprov, hpf1, hpf2, hpf3, hpf4, hphs, hplen, hpaddr, hpalloc, hpsize⟩ := hp
      refine ⟨hpwf, by rw [hpf1, he1, hf1], by rw [hpf2, he2, hf2],
        by rw [hpf3, he3, hf3], by rw [hpf4, he4, hf4], ?_⟩

      intro q hq
      simp only [Option.some_inj] at hq
      refine ⟨j, hplen, ?_, hpalloc, by omega⟩
      rw [← hq]
      exact hpaddr.symm

theorem wf_memcpy {s : Heap} (hwf : WF s) {q j : Nat}
    (hj : j < s.blocks.length) (hq : q = blkAddr s.blocks j)
    {src n : Nat} (hn : n ≤ (s.blocks.getD j default).size - 8) :
    WF (memcpyBlock s q src n) ∧
    (memcpyBlock s q src n).rover = s.rover ∧
    (memcpyBlock s q src n).freeHead = s.freeHead ∧
    (memcpyBlock s q src n).firstHead = s.firstHead ∧
    (memcpyBlock s q src n).num_freeblocks = s.num_freeblocks ∧
    (memcpyBlock s q src n).capacity = s.capacity ∧
    heapSize (memcpyBlock s q src n) = heapSize s := by
  obtain ⟨hok, hnadj, hrov, hfh, hfh2, hnum, hcap, hcap2⟩ := hwf
  have hpos : ∀ b ∈ s.blocks, 0 < b.size := fun b hb => by
    have := blkOk_iff.mp (blocksOk_iff.mp hok b hb); omega
  have hbok := blkOk_iff.mp (blocksOk_iff.mp hok _ (getD_mem hj))
  have hidx : realIdxOfAddr s q = some j :=
    (realIdxOfAddr_eq_some hpos).mpr ⟨hj, hq.symm⟩
  unfold memcpyBlock
  rw [hidx]
  dsimp only
  set b := s.blocks.getD j default with hb
  set b' : Blk := { b with
    data := (List.range n).map (fun k => byteAt s (src + k)) ++ b.data.drop n } with hb'
  have hb'ok : blkOk b' = true := by
    rw [blkOk_iff]
    refine ⟨hbok.1, hbok.2.1, ?_⟩
    show ((List.range n).map (fun k => byteAt s (src + k)) ++ b.data.drop n).length
        = b.size - 8
    rw [List.length_append, List.length_map, List.length_range, List.length_drop]
    omega
  have hget : ∀ k, (s.blocks.set j b').getD k default
      = if k = j then b' else s.blocks.getD k default := getD_set_patch hj b'
  refine ⟨⟨?_, ?_, ?_, hfh, hfh2, hnum, ?_, hcap2⟩, rfl, rfl, rfl, rfl, rfl, ?_⟩
  · rw [blocksOk_iff]
    intro x hx
    rcases List.mem_or_eq_of_mem_set hx with hmem | he
    · exact blocksOk_iff.mp hok x hmem
    · rw [he]; exact hb'ok
  · rw [noAdjFreeB_iff]
    intro k hk
    rw [List.length_set] at hk
    rw [hget, hget]
    have hold := (noAdjFreeB_iff s.blocks).mp hnadj k hk
    by_cases hk1 : k = j
    · rw [if_pos hk1, if_neg (by omega)]
      rcases hold with h | h
      · left
        show (s.blocks.getD j default).alloc = true
        rw [← hk1]
        exact h
      · right; exact h
    · rw [if_neg hk1]
      by_cases hk2 : k + 1 = j
      · rw [if_pos hk2]
        rcases hold with h | h
        · left; exact h
        · right
          show (s.blocks.getD j default).alloc = true
          rw [← hk2]
          exact h
      · rw [if_neg hk2]
        exact hold
  · rw [roverOkB_iff]
    rcases roverOkB_iff.mp hrov with h8 | ⟨K, hK, hKa⟩
    · exact Or.inl h8
    · right
      refine ⟨K, by rw [List.length_set]; exact hK, ?_⟩
      rw [@blkAddr_set s.blocks j hj b' rfl K]
      exact hKa
  · show 16 + sumSizes _ ≤ s.capacity
    rw [@sumSizes_set s.blocks j hj b' rfl]
    exact hcap
  · show 16 + sumSizes _ = 16 + sumSizes s.blocks
    rw [@sumSizes_set s.blocks j hj b' rfl]

theorem reallocCopy_le {s1 : Heap} {p n : Nat} : reallocCopy s1 p n ≤ n := by
  unfold reallocCopy
  dsimp only
  split <;> omega

theorem wf_realloc {s : Heap} (hwf : WF s) (p n : Nat) :
    WF (mm_realloc s p n).1 ∧
    (mm_realloc s p n).1.freeHead = s.freeHead ∧
    (mm_realloc s p n).1.firstHead = s.firstHead ∧
    (mm_realloc s p n).1.num_freeblocks = s.num_freeblocks ∧
    (mm_realloc s p n).1.capacity = s.capacity := by
  obtain ⟨hmwf, hm1, hm2, hm3, hm4, hmres⟩ := wf_malloc hwf n
  unfold mm_realloc
  cases hq : (mm_malloc s n).2 with
  | none =>
    simp only [hq]
    exact ⟨hmwf, hm1, hm2, hm3, hm4⟩
  | some q =>
    simp only [hq]
    have hn0 : n ≠ 0 := by
      intro h
      subst h
      have e : mm_malloc s 0 = (s, none) := by unfold mm_malloc; rw [if_pos rfl]
      rw [e] at hq
      simp at hq
    rw [if_neg hn0]
    obtain ⟨j, hj1, hj2, hj3, hj4⟩ := hmres q hq
    have hjok := blkOk_iff.mp
      (blocksOk_iff.mp hmwf.1 _ (getD_mem hj1))
    have hcopy : reallocCopy (mm_malloc s n).1 p n
        ≤ ((mm_malloc s n).1.blocks.getD j default).size - 8 := by
      have := @reallocCopy_le (mm_malloc s n).1 p n
      omega
    obtain ⟨hcwf, hc0, hc1, hc2, hc3, hc4, hc5⟩ :=
      wf_memcpy hmwf hj1 hj2 hcopy
    obtain ⟨hfwf, hff1, hff2, hff3, hff4, hff5⟩ :=
      wf_free hcwf p
    refine ⟨hfwf, ?_, ?_, ?_, ?_⟩
    · rw [hff1, hc1, hm1]
    · rw [hff2, hc2, hm2]
    · rw [hff3, hc3, hm3]
    · rw [hff4, hc4, hm4]

theorem wf_init {cap : Nat} {s : Heap} (hcap : cap < 2 ^ 32)
    (hinit : mm_init cap = some s) : WF s := by
  unfold mm_init at hinit
  by_cases hc : cap < 4 * WSIZE
  · rw [if_pos hc] at hinit
    simp at hinit
  rw [if_neg hc] at hinit
  have hcW : ¬cap < 16 := by
    unfold WSIZE at hc
    omega
  set s0 : Heap := ⟨[], 8, none, none, 0, cap⟩ with hs0
  have hwf0 : WF s0 := by
    refine ⟨rfl, rfl, ?_, rfl, rfl, rfl, ?_, hcap⟩
    · rw [roverOkB_iff]; left; rfl
    · show 16 + sumSizes [] ≤ cap
      simp [sumSizes]
      omega
  have hCW : CHUNKSIZE / WSIZE = 1024 := rfl
  dsimp only at hinit
  rcases @wf_extend s0 hwf0 (CHUNKSIZE / WSIZE) (by rw [hCW]) (by rw [hCW]; omega)
    with hnone |
    ⟨s', bp, hsome, hwf', _, _, _, _, _, _⟩
  · rw [hnone] at hinit
    simp at hinit
  · rw [hsome] at hinit
    simp at hinit
    rw [← hinit]
    exact hwf'

/-- Every reachable heap state satisfies the allocator invariant. -/
theorem reachable_wf {s : Heap} (h : Reachable s) : WF s := by
  induction h with
  | init cap s hcap hinit => exact wf_init hcap hinit
  | step s op hre hvalid ih =>
    cases op with
    | malloc n => exact (wf_malloc ih n).1
    | free p => exact (wf_free ih p).1
    | realloc p n => exact (wf_realloc ih p n).1

/-! Bridging lemmas and the claims. -/


theorem findIdx_range_eq_some {n m : Nat} {p : Nat → Bool} (hm : m < n) (hpm : p m = true)
    (hmin : ∀ j, j < m → p j = false) : (List.range n).findIdx? p = some m := by
  rw [List.findIdx?_eq_some_iff_getElem]
  refine ⟨by simpa using hm, ?_, ?_⟩
  · rw [List.getElem_range]
    exact hpm
  · intro j hj
    rw [List.getElem_range]
    rw [hmin j hj]
    simp

theorem findIdx_range_eq_none {n : Nat} {p : Nat → Bool}
    (h : ∀ j, j < n → p j = false) : (List.range n).findIdx? p = none := by
  rw [List.findIdx?_eq_none_iff]
  intro x hx
  exact h x (List.mem_range.mp hx)

theorem find_fit_fst (s : Heap) (asize : Nat) :
    (find_fit s asize).1
      = { s with rover := (ffLoop1 (suffixFrom (chain s) 8 s.rover) asize s.rover).1 } := by
  unfold find_fit
  dsimp only
  cases (ffLoop1 (suffixFrom (chain s) 8 s.rover) asize s.rover).2 <;> rfl

theorem malloc_none {s : Heap} {n : Nat} (h : (mm_malloc s n).2 = none) :
    (mm_malloc s n).1.blocks = s.blocks ∧
    (mm_malloc s n).1.freeHead = s.freeHead ∧
    (mm_malloc s n).1.firstHead = s.firstHead ∧
    (mm_malloc s n).1.num_freeblocks = s.num_freeblocks ∧
    (mm_malloc s n).1.capacity = s.capacity := by
  by_cases h0 : n = 0
  · subst h0
    have e : mm_malloc s 0 = (s, none) := by unfold mm_malloc; rw [if_pos rfl]
    rw [e]
    exact ⟨rfl, rfl, rfl, rfl, rfl⟩
  · have hmeq : mm_malloc s n
        = match (find_fit s (asizeOf n)).2 with
          | some bp => (place (find_fit s (asizeOf n)).1 bp (asizeOf n), some bp)
          | none =>
            match extend_heap (find_fit s (asizeOf n)).1
                (max (asizeOf n) CHUNKSIZE / WSIZE) with
            | none => ((find_fit s (asizeOf n)).1, none)
            | some er => (place er.1 er.2 (asizeOf n), some er.2) := by
      unfold mm_malloc
      rw [if_neg h0]
    rw [hmeq] at h ⊢
    cases hf : (find_fit s (asizeOf n)).2 with
    | some bp =>
      rw [hf] at h
      exact Option.noConfusion (show (some bp : Option Nat) = none from h)
    | none =>
      rw [hf] at h
      cases he : extend_heap (find_fit s (asizeOf n)).1 (max (asizeOf n) CHUNKSIZE / WSIZE) with
      | some er =>
        rw [he] at h
        exact Option.noConfusion (show (some er.2 : Option Nat) = none from h)
      | none =>
        have hb : (find_fit s (asizeOf n)).1.blocks = s.blocks := by rw [find_fit_fst]
        have h1 : (find_fit s (asizeOf n)).1.freeHead = s.freeHead := by rw [find_fit_fst]
        have h2 : (find_fit s (asizeOf n)).1.firstHead = s.firstHead := by rw [find_fit_fst]
        have h3 : (find_fit s (asizeOf n)).1.num_freeblocks = s.num_freeblocks := by
          rw [find_fit_fst]
        have h4 : (find_fit s (asizeOf n)).1.capacity = s.capacity := by rw [find_fit_fst]
        exact ⟨hb, h1, h2, h3, h4⟩

theorem isLive_congr {s1 s2 : Heap} (h : s1.blocks = s2.blocks) (p : Nat) :
    isLive s1 p = isLive s2 p := by
  unfold isLive blockAt realIdxOfAddr
  rw [h]

theorem heapBytes_congr {s1 s2 : Heap} (h : s1.blocks = s2.blocks) :
    heapBytes s1 = heapBytes s2 := by
  unfold heapBytes
  rw [h]

theorem mergeUpd_rover_fixup (s : Heap) (l r : Nat) (m : Blk)
    (h1 : blkAddr (mergeUpd s l r m).1.blocks (mergeUpd s l r m).2 < s.rover)
    (h2 : s.rover < blkAddr (mergeUpd s l r m).1.blocks (mergeUpd s l r m).2
      + ((mergeUpd s l r m).1.blocks.getD (mergeUpd s l r m).2 default).size) :
    (mergeUpd s l r m).1.rover
      = blkAddr (mergeUpd s l r m).1.blocks (mergeUpd s l r m).2 := by
  unfold mergeUpd at h1 h2 ⊢
  dsimp only at h1 h2 ⊢
  rw [if_pos ⟨h1, h2⟩]



/-- C1: `mm_realloc(ptr, 0)` always returns `(s, NULL)` with the state
untouched: the leading `mm_malloc(0)` returns NULL (src/mm.c:240-245), so
mm_realloc returns NULL before ever reaching its `size == 0` free branch
(src/mm.c:248-249) — the block stays ALLOCATED, unlike after `mm_free`. -/
theorem realloc_zero_frees_nothing :
    (∀ (s : Heap) (p : Nat), mm_realloc s p 0 = (s, none)) ∧
    isLive sAlloc 16 = true ∧
    (mm_realloc sAlloc 16 0).1 = sAlloc ∧
    isLive (mm_free sAlloc 16) 16 = false := by
  have h : ∀ (s : Heap) (p : Nat), mm_realloc s p 0 = (s, none) := by
    intro s p
    have e : mm_malloc s 0 = (s, none) := by unfold mm_malloc; rw [if_pos rfl]
    unfold mm_realloc
    rw [e]
  refine ⟨h, by decide, ?_, by decide⟩
  rw [h sAlloc 16]

theorem asizeOfSizeT_eq_asizeOf {n : Nat} (h : n + 16 ≤ 2 ^ 64) :
    asizeOfSizeT n = asizeOf n := by
  unfold asizeOfSizeT asizeOf
  by_cases hc : n ≤ DSIZE
  · rw [if_pos hc, if_pos hc]
  · rw [if_neg hc, if_neg hc]
    have h64 : (2 : Nat) ^ 64 = 18446744073709551616 := by norm_num
    rw [h64] at h
    have hm : (n + DSIZE + (DSIZE - 1)) % 2 ^ 64 = n + DSIZE + (DSIZE - 1) := by
      apply Nat.mod_eq_of_lt
      rw [h64]
      unfold DSIZE
      omega
    rw [hm]

theorem malloc_adjusted_size_counterexample :
    0 < 2 ^ 64 - 8 ∧ 8 < 2 ^ 64 - 8 ∧
    asizeOfSizeT (2 ^ 64 - 8) = 0 ∧
    ¬(2 ^ 64 - 8 + 8 ≤ asizeOfSizeT (2 ^ 64 - 8)) ∧
    ¬(16 ≤ asizeOfSizeT (2 ^ 64 - 8)) ∧
    asizeOf (2 ^ 64 - 8) = 2 ^ 64 := by decide

/-- C9 (amended): the adjusted block size of mm_malloc (src/mm.c:189-193),
computed in the source's 64-bit `size_t` arithmetic, is 16 bytes when the
request is at most 8 bytes; whenever the request is larger and
`n + 16 ≤ 2^64` — so that the sum of src/mm.c:192 does not wrap — it is the
request plus 8 bytes of overhead rounded up to the next multiple of 8, and
agrees with the heap model's `asizeOf`; for the 15 representable requests
above `2^64 - 16` the sum wraps modulo 2^64 and the adjusted size collapses
to `8 * ((n + 15 - 2^64) / 8)`, which is 0 or 8; in every case it is a
multiple of the alignment unit 8. -/
theorem malloc_adjusted_size_sizet (n : Nat) (h : 0 < n) (hn : n < 2 ^ 64) :
    (n ≤ 8 → asizeOfSizeT n = 16) ∧
    (8 < n → n + 16 ≤ 2 ^ 64 →
      n + 8 ≤ asizeOfSizeT n ∧ asizeOfSizeT n < n + 16 ∧
        asizeOfSizeT n = asizeOf n) ∧
    (8 < n → 2 ^ 64 < n + 16 →
      asizeOfSizeT n = 8 * ((n + 15 - 2 ^ 64) / 8)) ∧
    asizeOfSizeT n % 8 = 0 := by
  have h64 : (2 : Nat) ^ 64 = 18446744073709551616 := by norm_num
  refine ⟨?_, ?_, ?_, ?_⟩
  · intro hc
    unfold asizeOfSizeT DSIZE
    rw [if_pos hc]
  · intro hc hc2
    refine ⟨?_, ?_, asizeOfSizeT_eq_asizeOf hc2⟩ <;>
    · rw [asizeOfSizeT_eq_asizeOf hc2]
      unfold asizeOf DSIZE
      rw [if_neg (show ¬n ≤ 8 by omega)]
      omega
  · intro hc hc2
    unfold asizeOfSizeT DSIZE
    rw [if_neg (show ¬n ≤ 8 by omega)]
    rw [h64] at hc2 ⊢
    have hm : (n + 8 + (8 - 1)) % 18446744073709551616
        = n + 15 - 18446744073709551616 := by
      omega
    rw [hm]
  · by_cases hc : n ≤ 8
    · unfold asizeOfSizeT DSIZE
      rw [if_pos hc]
    · unfold asizeOfSizeT DSIZE
      rw [if_neg hc]
      omega

theorem malloc_adjusted_size_sizet_witness :
    0 < 20 ∧ 20 < 2 ^ 64 ∧
    ((20 ≤ 8 → asizeOfSizeT 20 = 16) ∧
      (8 < 20 → 20 + 16 ≤ 2 ^ 64 →
        20 + 8 ≤ asizeOfSizeT 20 ∧ asizeOfSizeT 20 < 20 + 16 ∧
          asizeOfSizeT 20 = asizeOf 20) ∧
      (8 < 20 → 2 ^ 64 < 20 + 16 →
        asizeOfSizeT 20 = 8 * ((20 + 15 - 2 ^ 64) / 8)) ∧
      asizeOfSizeT 20 % 8 = 0) :=
  ⟨by decide, by decide, malloc_adjusted_size_sizet 20 (by decide) (by decide)⟩

/-- C10: the free-list globals `freeHead`, `firstHead` and `num_freeblocks`
(src/mm.c:267-269) still hold their initial null/zero values in every state
reachable by init and any sequence of public operations. -/
theorem freelist_globals_never_written {s : Heap} (h : Reachable s) :
    s.freeHead = none ∧ s.firstHead = none ∧ s.num_freeblocks = 0 := by
  obtain ⟨-, -, -, h1, h2, h3, -, -⟩ := reachable_wf h
  exact ⟨h1, h2, h3⟩

theorem freelist_globals_witness :
    sAlloc.freeHead = none ∧ sAlloc.firstHead = none ∧ sAlloc.num_freeblocks = 0 :=
  freelist_globals_never_written
    (Reachable.step sInit (Op.malloc 8) (Reachable.init 1000000 sInit (by decide) rfl) rfl)

/-- C4: in every reachable heap state, no two address-adjacent blocks are
both FREE (the bounding prologue and epilogue are allocated by construction). -/
theorem no_adjacent_free_blocks {s : Heap} (h : Reachable s) :
    ∀ k, k + 1 < s.blocks.length →
      (s.blocks.getD k default).alloc = true ∨
        (s.blocks.getD (k + 1) default).alloc = true :=
  (noAdjFreeB_iff s.blocks).mp (reachable_wf h).2.1

theorem no_adjacent_free_blocks_witness :
    (sAlloc.blocks.getD 0 default).alloc = true ∨
      (sAlloc.blocks.getD 1 default).alloc = true :=
  no_adjacent_free_blocks
    (Reachable.step sInit (Op.malloc 8) (Reachable.init 1000000 sInit (by decide) rfl) rfl)
    0 (by decide)

/-- C3 is refuted: on every reachable heap state — where the structural
invariants all hold — mm_check aborts: its first statement evaluates
`get_alloc(firstHead)` and `firstHead` is never assigned, so `assert(h)`
(src/mm.c:105) fails with no invariant violated. -/
theorem check_aborts_on_valid_heaps {s : Heap} (h : Reachable s) :
    blocksOk s.blocks = true ∧ noAdjFreeB s.blocks = true ∧ roverOkB s = true ∧
      mm_check s = Except.error "assert(h) in get_alloc failed: h = firstHead is NULL" := by
  obtain ⟨h1, h2, h3, -, hfh, -, -, -⟩ := reachable_wf h
  refine ⟨h1, h2, h3, ?_⟩
  unfold mm_check
  rw [hfh]

theorem check_aborts_witness :
    blocksOk sInit.blocks = true ∧ noAdjFreeB sInit.blocks = true ∧ roverOkB sInit = true ∧
      mm_check sInit = Except.error "assert(h) in get_alloc failed: h = firstHead is NULL" :=
  check_aborts_on_valid_heaps (Reachable.init 1000000 sInit (by decide) rfl)

/-- C5 (amended): place (src/mm.c:369-386) splits exactly when
`csize - asize >= DSIZE * 2` where `DSIZE * 2` is 16 bytes — one minimum
block size, not two; otherwise the whole block is marked allocated. -/
theorem place_split_threshold {s : Heap} {i asize : Nat}
    (hpos : ∀ b ∈ s.blocks, 0 < b.size) (hi : i < s.blocks.length) :
    DSIZE * 2 = 16 ∧
    (16 ≤ (s.blocks.getD i default).size - asize →
      (place s (blkAddr s.blocks i) asize).blocks
        = s.blocks.take i
          ++ [Blk.mk asize true ((s.blocks.getD i default).data.take (asize - 8)),
              Blk.mk ((s.blocks.getD i default).size - asize) false
                ((s.blocks.getD i default).data.drop asize)]
          ++ s.blocks.drop (i + 1)) ∧
    ((s.blocks.getD i default).size - asize < 16 →
      (place s (blkAddr s.blocks i) asize).blocks
        = s.blocks.set i
            (Blk.mk (s.blocks.getD i default).size true (s.blocks.getD i default).data)) ∧
    ((place s (blkAddr s.blocks i) asize).blocks.length = s.blocks.length + 1 ↔
      16 ≤ (s.blocks.getD i default).size - asize) := by
  rw [place_spec hpos hi]
  refine ⟨rfl, ?_, ?_, ?_⟩
  · intro hc
    rw [if_pos (by unfold DSIZE; omega)]
  · intro hc
    rw [if_neg (by unfold DSIZE; omega)]
  · by_cases hc : DSIZE * 2 ≤ (s.blocks.getD i default).size - asize
    · rw [if_pos hc]
      unfold DSIZE at hc
      constructor
      · intro _
        omega
      · intro _
        dsimp only
        rw [List.length_append, List.length_append, List.length_take, List.length_drop]
        simp only [List.length_cons, List.length_nil]
        omega
    · rw [if_neg hc]
      unfold DSIZE at hc
      dsimp only
      rw [List.length_set]
      constructor
      · intro hx
        omega
      · intro hx
        omega

theorem place_split_threshold_witness :
    DSIZE * 2 = 16 ∧
    (16 ≤ (sSplit.blocks.getD 0 default).size - 16 →
      (place sSplit (blkAddr sSplit.blocks 0) 16).blocks
        = sSplit.blocks.take 0
          ++ [Blk.mk 16 true ((sSplit.blocks.getD 0 default).data.take (16 - 8)),
              Blk.mk ((sSplit.blocks.getD 0 default).size - 16) false
                ((sSplit.blocks.getD 0 default).data.drop 16)]
          ++ sSplit.blocks.drop 1) ∧
    ((sSplit.blocks.getD 0 default).size - 16 < 16 →
      (place sSplit (blkAddr sSplit.blocks 0) 16).blocks
        = sSplit.blocks.set 0
            (Blk.mk (sSplit.blocks.getD 0 default).size true
              (sSplit.blocks.getD 0 default).data)) ∧
    ((place sSplit (blkAddr sSplit.blocks 0) 16).blocks.length
        = sSplit.blocks.length + 1 ↔
      16 ≤ (sSplit.blocks.getD 0 default).size - 16) :=
  place_split_threshold (by decide) (by decide)

theorem place_splits_below_double_minimum :
    (sSplit.blocks.getD 0 default).size - 16 = 16 ∧
    ¬(2 * 16 ≤ (sSplit.blocks.getD 0 default).size - 16) ∧
    (place sSplit 16 16).blocks.length = sSplit.blocks.length + 1 := by decide

/-- C7: when the replacement allocation fails, mm_realloc returns NULL and
nothing in the heap is mutated: blocks, byte image, liveness of the old
pointer and the globals are unchanged (only the search cursor may move). -/
theorem realloc_failure_mutates_nothing {s : Heap} {p n : Nat} (h0 : 0 < n)
    (hfail : (mm_realloc s p n).2 = none) :
    (mm_realloc s p n).1.blocks = s.blocks ∧
    heapBytes (mm_realloc s p n).1 = heapBytes s ∧
    isLive (mm_realloc s p n).1 p = isLive s p ∧
    (mm_realloc s p n).1.freeHead = s.freeHead ∧
    (mm_realloc s p n).1.firstHead = s.firstHead ∧
    (mm_realloc s p n).1.num_freeblocks = s.num_freeblocks ∧
    (mm_realloc s p n).1.capacity = s.capacity := by
  have hn0 : n ≠ 0 := by omega
  unfold mm_realloc at hfail ⊢
  dsimp only at hfail ⊢
  cases hm : (mm_malloc s n).2 with
  | some q =>
    exfalso
    rw [hm] at hfail
    have hfail2 : (if n = 0 then ((mm_free (mm_malloc s n).1 p, none) : Heap × Option Nat)
        else (mm_free (memcpyBlock (mm_malloc s n).1 q p (reallocCopy (mm_malloc s n).1 p n)) p,
          some q)).2 = none := hfail
    rw [if_neg hn0] at hfail2
    exact Option.noConfusion (show (some q : Option Nat) = none from hfail2)
  | none =>
    obtain ⟨hb, h1, h2, h3, h4⟩ := malloc_none hm
    exact ⟨hb, heapBytes_congr hb, isLive_congr hb p, h1, h2, h3, h4⟩

theorem realloc_failure_witness :
    0 < 5000 ∧ (mm_realloc sTight1 16 5000).2 = none ∧
    ((mm_realloc sTight1 16 5000).1.blocks = sTight1.blocks ∧
      heapBytes (mm_realloc sTight1 16 5000).1 = heapBytes sTight1 ∧
      isLive (mm_realloc sTight1 16 5000).1 16 = isLive sTight1 16 ∧
      (mm_realloc sTight1 16 5000).1.freeHead = sTight1.freeHead ∧
      (mm_realloc sTight1 16 5000).1.firstHead = sTight1.firstHead ∧
      (mm_realloc sTight1 16 5000).1.num_freeblocks = sTight1.num_freeblocks ∧
      (mm_realloc sTight1 16 5000).1.capacity = sTight1.capacity) :=
  ⟨by decide, by decide, realloc_failure_mutates_nothing (by decide) (by decide)⟩

/-- C8: whenever coalesce merges (returns a changed state), a rover that
pointed strictly inside the merged block's span is repositioned to the merged
block's pointer (src/mm.c:456-458); and in every reachable state the rover is
the prologue pointer or a block pointer of the heap (epilogue included). -/
theorem coalesce_rover_repositioning :
    (∀ (s : Heap) (i : Nat), coalesce s i ≠ (s, i) →
      blkAddr (coalesce s i).1.blocks (coalesce s i).2 < s.rover →
      s.rover < blkAddr (coalesce s i).1.blocks (coalesce s i).2
        + ((coalesce s i).1.blocks.getD (coalesce s i).2 default).size →
      (coalesce s i).1.rover = blkAddr (coalesce s i).1.blocks (coalesce s i).2) ∧
    (∀ s : Heap, Reachable s →
      s.rover = 8 ∨ ∃ k, k ≤ s.blocks.length ∧ blkAddr s.blocks k = s.rover) := by
  constructor
  · intro s i hne h1 h2
    by_cases hp : (if i = 0 then true else (s.blocks.getD (i - 1) default).alloc) = true
    · by_cases hn : (if i + 1 = s.blocks.length then true
          else (s.blocks.getD (i + 1) default).alloc) = true
      · exact absurd (coalesce_case1 hp hn) hne
      · have hlen : i + 1 ≠ s.blocks.length := fun he => hn (by rw [if_pos he])
        have hnfree : (s.blocks.getD (i + 1) default).alloc = false := by
          rw [if_neg hlen] at hn
          revert hn
          cases (s.blocks.getD (i + 1) default).alloc <;> simp
        rw [coalesce_case2 hp hlen hnfree] at h1 h2 ⊢
        exact mergeUpd_rover_fixup s i (i + 2) _ h1 h2
    · have hi0 : i ≠ 0 := fun he => hp (by rw [if_pos he])
      have hpfree : (s.blocks.getD (i - 1) default).alloc = false := by
        rw [if_neg hi0] at hp
        revert hp
        cases (s.blocks.getD (i - 1) default).alloc <;> simp
      by_cases hn : (if i + 1 = s.blocks.length then true
          else (s.blocks.getD (i + 1) default).alloc) = true
      · rw [coalesce_case3 hi0 hpfree hn] at h1 h2 ⊢
        exact mergeUpd_rover_fixup s (i - 1) (i + 1) _ h1 h2
      · have hlen : i + 1 ≠ s.blocks.length := fun he => hn (by rw [if_pos he])
        have hnfree : (s.blocks.getD (i + 1) default).alloc = false := by
          rw [if_neg hlen] at hn
          revert hn
          cases (s.blocks.getD (i + 1) default).alloc <;> simp
        rw [coalesce_case4 hi0 hpfree hlen hnfree] at h1 h2 ⊢
        exact mergeUpd_rover_fixup s (i - 1) (i + 2) _ h1 h2
  · intro s h
    exact roverOkB_iff.mp (reachable_wf h).2.2.1

theorem coalesce_rover_witness :
    (coalesce sC8 0).1.rover = blkAddr (coalesce sC8 0).1.blocks (coalesce sC8 0).2 ∧
    (sInit.rover = 8 ∨ ∃ k, k ≤ sInit.blocks.length ∧ blkAddr sInit.blocks k = sInit.rover) :=
  ⟨coalesce_rover_repositioning.1 sC8 0 (by decide) (by decide) (by decide),
    coalesce_rover_repositioning.2 sInit (Reachable.init 1000000 sInit (by decide) rfl)⟩

/-- C6: find_fit (src/mm.c:393-419) is the spec's next-fit search: if the
spec's forward first-fit scan from the cursor finds a block, find_fit returns
it and leaves the cursor there; if the forward scan finds nothing, find_fit
returns whatever the spec's wrapped scan (strictly below the old cursor, same
fit test) yields — no fit only if both find nothing. -/
theorem next_fit_search_spec {s : Heap} {asize : Nat} (hwf : WF s) :
    (∀ a, specFirstFitFrom s.blocks s.rover asize = some a →
      (find_fit s asize).2 = some a ∧ (find_fit s asize).1.rover = a) ∧
    (specFirstFitFrom s.blocks s.rover asize = none →
      (find_fit s asize).2 = specFirstFitBefore s.blocks s.rover asize) ∧
    (find_fit s asize).1.blocks = s.blocks := by
  obtain ⟨hb, -, -, -, -, -, hmain⟩ := @find_fit_char s asize hwf
  rcases hmain with ⟨m, hm1, hm2, hm3, hm4, hm5, hm6⟩ | ⟨hnof, hrve, hwrap⟩
  · have hspec : specFirstFitFrom s.blocks s.rover asize
        = some (blkAddr s.blocks m) := by
      unfold specFirstFitFrom
      rw [findIdx_range_eq_some hm1 ?_ ?_]
      · rfl
      · show (decide (s.rover ≤ blkAddr s.blocks m)
            && fitB asize (s.blocks.getD m default)) = true
        rw [hm3, decide_eq_true hm2]
        rfl
      · intro j hj
        show (decide (s.rover ≤ blkAddr s.blocks j)
            && fitB asize (s.blocks.getD j default)) = false
        by_cases hr : s.rover ≤ blkAddr s.blocks j
        · rw [hm4 j (by omega) hr hj]
          rw [Bool.and_false]
        · rw [decide_eq_false hr]
          rw [Bool.false_and]
    refine ⟨?_, ?_, hb⟩
    · intro a ha
      rw [hspec] at ha
      have haa : blkAddr s.blocks m = a := by
        injection ha
      rw [← haa]
      exact ⟨hm5, hm6⟩
    · intro hnone
      rw [hspec] at hnone
      exact Option.noConfusion hnone
  · have hspecN : specFirstFitFrom s.blocks s.rover asize = none := by
      unfold specFirstFitFrom
      rw [findIdx_range_eq_none ?_]
      · rfl
      · intro j hj
        show (decide (s.rover ≤ blkAddr s.blocks j)
            && fitB asize (s.blocks.getD j default)) = false
        by_cases hr : s.rover ≤ blkAddr s.blocks j
        · rw [hnof j hj hr]
          rw [Bool.and_false]
        · rw [decide_eq_false hr]
          rw [Bool.false_and]
    rcases hwrap with ⟨m, hw1, hw2, hw3, hw4, hw5⟩ | ⟨hnow, hnone⟩
    · have hspecB : specFirstFitBefore s.blocks s.rover asize
          = some (blkAddr s.blocks m) := by
        unfold specFirstFitBefore
        rw [findIdx_range_eq_some hw1 ?_ ?_]
        · rfl
        · show (decide (blkAddr s.blocks m < s.rover)
              && fitB asize (s.blocks.getD m default)) = true
          rw [hw3, decide_eq_true hw2]
          rfl
        · intro j hj
          show (decide (blkAddr s.blocks j < s.rover)
              && fitB asize (s.blocks.getD j default)) = false
          rw [hw4 j hj]
          rw [Bool.and_false]
      refine ⟨?_, ?_, hb⟩
      · intro a ha
        rw [hspecN] at ha
        exact Option.noConfusion ha
      · intro _
        rw [hspecB, hw5]
    · have hspecB : specFirstFitBefore s.blocks s.rover asize = none := by
        unfold specFirstFitBefore
        rw [findIdx_range_eq_none ?_]
        · rfl
        · intro j hj
          show (decide (blkAddr s.blocks j < s.rover)
              && fitB asize (s.blocks.getD j default)) = false
          by_cases hr : blkAddr s.blocks j < s.rover
          · rw [hnow j hj hr]
            rw [Bool.and_false]
          · rw [decide_eq_false hr]
            rw [Bool.false_and]
      refine ⟨?_, ?_, hb⟩
      · intro a ha
        rw [hspecN] at ha
        exact Option.noConfusion ha
      · intro _
        rw [hspecB, hnone]

theorem next_fit_search_witness :
    (∀ a, specFirstFitFrom sFit.blocks sFit.rover 24 = some a →
      (find_fit sFit 24).2 = some a ∧ (find_fit sFit 24).1.rover = a) ∧
    (specFirstFitFrom sFit.blocks sFit.rover 24 = none →
      (find_fit sFit 24).2 = specFirstFitBefore sFit.blocks sFit.rover 24) ∧
    (find_fit sFit 24).1.blocks = sFit.blocks :=
  next_fit_search_spec (by decide)


theorem pack_false (sz : Nat) : pack sz false = sz := by
  show sz ||| 0 = sz
  exact Nat.or_zero sz

theorem pack_true_odd (sz : Nat) : pack sz true % 2 = 1 := by
  show (sz ||| 1) % 2 = 1
  simp

theorem pack_lt (sz : Nat) (al : Bool) (h : sz < 2 ^ 32) : pack sz al < 2 ^ 32 := by
  cases al
  · rw [pack_false]
    exact h
  · show sz ||| 1 < 2 ^ 32
    exact Nat.or_lt_two_pow h (by norm_num)

theorem pack_pos (sz : Nat) (al : Bool) (h : 16 ≤ sz) : 1 ≤ pack sz al := by
  cases al
  · rw [pack_false]
    omega
  · have := pack_true_odd sz
    omega

theorem le4_length (v : Nat) : (le4 v).length = 4 := rfl

theorem le4_word (v : Nat) :
    (le4 v).getD 0 0 + 256 * (le4 v).getD 1 0 + 256 ^ 2 * (le4 v).getD 2 0
      + 256 ^ 3 * (le4 v).getD 3 0 = v % 2 ^ 32 := by
  unfold le4
  simp only [List.getD_cons_zero, List.getD_cons_succ]
  simp only [show (256 : Nat) ^ 2 = 65536 from rfl, show (256 : Nat) ^ 3 = 16777216 from rfl,
    show (2 : Nat) ^ 32 = 4294967296 from rfl]
  omega

theorem blkBytes_length {b : Blk} (hok : blkOk b = true) : (blkBytes b).length = b.size := by
  obtain ⟨h1, h2, h3⟩ := blkOk_iff.mp hok
  unfold blkBytes
  rw [List.length_append, List.length_append]
  have h4 : (le4 (pack b.size b.alloc)).length = 4 := le4_length _
  omega

theorem blocksBytes_cons (b : Blk) (bs : List Blk) :
    blocksBytes (b :: bs) = blkBytes b ++ blocksBytes bs := rfl

theorem blocksOk_tail {b : Blk} {bs : List Blk} (hok : blocksOk (b :: bs) = true) :
    blocksOk bs = true := by
  rw [blocksOk_iff] at hok ⊢
  intro x hx
  exact hok x (List.mem_cons_of_mem b hx)

theorem blocksOk_head {b : Blk} {bs : List Blk} (hok : blocksOk (b :: bs) = true) :
    blkOk b = true :=
  blocksOk_iff.mp hok b (List.mem_cons_self b bs)

theorem blocksBytes_length {bs : List Blk} (hok : blocksOk bs = true) :
    (blocksBytes bs).length = sumSizes bs := by
  induction bs with
  | nil => rfl
  | cons b rest ih =>
    rw [blocksBytes_cons, List.length_append, blkBytes_length (blocksOk_head hok),
      ih (blocksOk_tail hok), sumSizes_cons]

theorem sumSizes_take_succ {bs : List Blk} {i : Nat} (hi : i < bs.length) :
    sumSizes (bs.take (i + 1)) = sumSizes (bs.take i) + (bs.getD i default).size := by
  have h := blkAddr_succ hi
  unfold blkAddr at h
  omega

theorem sumSizes_take_le (bs : List Blk) (i : Nat) :
    sumSizes (bs.take i) ≤ sumSizes bs := by
  conv_rhs => rw [← List.take_append_drop i bs]
  rw [sumSizes_append]
  omega

theorem blocksBytes_getD {bs : List Blk} (hok : blocksOk bs = true) {i off : Nat}
    (hi : i < bs.length) (hoff : off < (bs.getD i default).size) :
    (blocksBytes bs).getD (sumSizes (bs.take i) + off) 0
      = (blkBytes (bs.getD i default)).getD off 0 := by
  induction bs generalizing i with
  | nil => simp at hi
  | cons b rest ih =>
    cases i with
    | zero =>
      rw [blocksBytes_cons]
      rw [show sumSizes ((b :: rest).take 0) + off = off by simp [sumSizes]]
      rw [List.getD_cons_zero] at hoff ⊢
      rw [List.getD_append _ _ 0 off (by rw [blkBytes_length (blocksOk_head hok)]; omega)]
    | succ i' =>
      have hi' : i' < rest.length := by
        rw [List.length_cons] at hi
        omega
      rw [blocksBytes_cons]
      rw [List.take_succ_cons, sumSizes_cons]
      rw [List.getD_cons_succ] at hoff ⊢
      have hlen : (blkBytes b).length = b.size := blkBytes_length (blocksOk_head hok)
      rw [show b.size + sumSizes (rest.take i') + off
          = (blkBytes b).length + (sumSizes (rest.take i') + off) by rw [hlen]; omega]
      rw [List.getD_append_right _ _ 0 _ (by omega)]
      rw [show (blkBytes b).length + (sumSizes (rest.take i') + off) - (blkBytes b).length
          = sumSizes (rest.take i') + off by omega]
      exact ih (blocksOk_tail hok) hi' hoff

theorem byteAt_blocks {s : Heap} {x : Nat} (hx : x < (blocksBytes s.blocks).length) :
    byteAt s (12 + x) = (blocksBytes s.blocks).getD x 0 := by
  unfold byteAt heapBytes
  have hP : (le4 0 ++ le4 (pack 8 true) ++ le4 (pack 8 true)).length = 12 := rfl
  rw [List.getD_append _ _ 0 (12 + x)
    (by rw [List.length_append, hP]; omega)]
  rw [List.getD_append_right _ _ 0 (12 + x) (by rw [hP]; omega)]
  rw [hP, show 12 + x - 12 = x by omega]

theorem byteAt_header {s : Heap} (hok : blocksOk s.blocks = true) {i t : Nat}
    (hi : i < s.blocks.length) (ht : t < 4) :
    byteAt s (blkAddr s.blocks i - 4 + t)
      = (le4 (pack (s.blocks.getD i default).size (s.blocks.getD i default).alloc)).getD t 0
      := by
  have hbok := blkOk_iff.mp (blocksOk_iff.mp hok _ (getD_mem hi))
  have haddr : blkAddr s.blocks i = 16 + sumSizes (s.blocks.take i) := rfl
  have hpos : blkAddr s.blocks i - 4 + t = 12 + (sumSizes (s.blocks.take i) + t) := by
    rw [haddr]
    omega
  have hstep := sumSizes_take_succ hi
  have hbound : sumSizes (s.blocks.take (i + 1)) ≤ sumSizes s.blocks :=
    sumSizes_take_le _ _
  rw [hpos, byteAt_blocks (by rw [blocksBytes_length hok]; omega),
    blocksBytes_getD hok hi (by omega)]
  unfold blkBytes
  rw [List.getD_append _ _ 0 t (by rw [List.length_append, le4_length]; omega)]
  rw [List.getD_append _ _ 0 t (by rw [le4_length]; omega)]

theorem byteAt_payload {s : Heap} (hok : blocksOk s.blocks = true) {i k : Nat}
    (hi : i < s.blocks.length) (hk : k < (s.blocks.getD i default).size - 8) :
    byteAt s (blkAddr s.blocks i + k) = (s.blocks.getD i default).data.getD k 0 := by
  have hbok := blkOk_iff.mp (blocksOk_iff.mp hok _ (getD_mem hi))
  have haddr : blkAddr s.blocks i = 16 + sumSizes (s.blocks.take i) := rfl
  have hpos : blkAddr s.blocks i + k = 12 + (sumSizes (s.blocks.take i) + (4 + k)) := by
    rw [haddr]
    omega
  have hstep := sumSizes_take_succ hi
  have hbound : sumSizes (s.blocks.take (i + 1)) ≤ sumSizes s.blocks :=
    sumSizes_take_le _ _
  rw [hpos, byteAt_blocks (by rw [blocksBytes_length hok]; omega),
    blocksBytes_getD hok hi (by omega)]
  unfold blkBytes
  rw [List.getD_append _ _ 0 (4 + k)
    (by rw [List.length_append, le4_length]; omega)]
  rw [List.getD_append_right _ _ 0 (4 + k) (by rw [le4_length]; omega)]
  rw [le4_length, show 4 + k - 4 = k by omega]

theorem readSizeT_split (s : Heap) (a : Nat) :
    readSizeT s a
      = (byteAt s a + 256 * byteAt s (a + 1) + 256 ^ 2 * byteAt s (a + 2)
          + 256 ^ 3 * byteAt s (a + 3))
        + 2 ^ 32 * (byteAt s (a + 4) + 256 * byteAt s (a + 5) + 256 ^ 2 * byteAt s (a + 6)
          + 256 ^ 3 * byteAt s (a + 7)) := by
  unfold readSizeT
  ring

theorem block_size_lt {s : Heap} (hwf : WF s) {i : Nat} (hi : i < s.blocks.length) :
    (s.blocks.getD i default).size < 2 ^ 32 := by
  obtain ⟨hok, -, -, -, -, -, hcap, hcap2⟩ := hwf
  have hstep := sumSizes_take_succ hi
  have hbound : sumSizes (s.blocks.take (i + 1)) ≤ sumSizes s.blocks :=
    sumSizes_take_le _ _
  unfold heapSize at hcap
  omega

theorem readSizeT_at_block_header {s : Heap} (hwf : WF s) {i : Nat}
    (hi : i < s.blocks.length) :
    2 ^ 32 ≤ readSizeT s (blkAddr s.blocks i - 8) := by
  have hok := hwf.1
  have hbok := blkOk_iff.mp (blocksOk_iff.mp hok _ (getD_mem hi))
  have h16 : 16 ≤ blkAddr s.blocks i := by
    unfold blkAddr
    omega
  have hword : byteAt s (blkAddr s.blocks i - 8 + 4)
        + 256 * byteAt s (blkAddr s.blocks i - 8 + 5)
        + 256 ^ 2 * byteAt s (blkAddr s.blocks i - 8 + 6)
        + 256 ^ 3 * byteAt s (blkAddr s.blocks i - 8 + 7)
      = pack (s.blocks.getD i default).size (s.blocks.getD i default).alloc % 2 ^ 32 := by
    rw [show blkAddr s.blocks i - 8 + 4 = blkAddr s.blocks i - 4 + 0 by omega,
      show blkAddr s.blocks i - 8 + 5 = blkAddr s.blocks i - 4 + 1 by omega,
      show blkAddr s.blocks i - 8 + 6 = blkAddr s.blocks i - 4 + 2 by omega,
      show blkAddr s.blocks i - 8 + 7 = blkAddr s.blocks i - 4 + 3 by omega,
      byteAt_header hok hi (by omega), byteAt_header hok hi (by omega),
      byteAt_header hok hi (by omega), byteAt_header hok hi (by omega)]
    exact le4_word _
  have hlt : pack (s.blocks.getD i default).size (s.blocks.getD i default).alloc < 2 ^ 32 :=
    pack_lt _ _ (block_size_lt hwf hi)
  have hpos : 1 ≤ pack (s.blocks.getD i default).size (s.blocks.getD i default).alloc :=
    pack_pos _ _ hbok.2.1
  rw [readSizeT_split]
  have hmod : pack (s.blocks.getD i default).size (s.blocks.getD i default).alloc % 2 ^ 32
      = pack (s.blocks.getD i default).size (s.blocks.getD i default).alloc :=
    Nat.mod_eq_of_lt hlt
  omega

theorem mergeUpd_preserves {s : Heap} {l r k : Nat} {m : Blk}
    (hlr : l ≤ r) (hr : r ≤ s.blocks.length)
    (hsum : m.size = sumSizes ((s.blocks.drop l).take (r - l)))
    (hk : k < s.blocks.length) (hout : k < l ∨ r ≤ k) :
    ∃ k', k' < (mergeUpd s l r m).1.blocks.length ∧
      (mergeUpd s l r m).1.blocks.getD k' default = s.blocks.getD k default ∧
      blkAddr (mergeUpd s l r m).1.blocks k' = blkAddr s.blocks k := by
  rw [mergeUpd_blocks]
  have hsum1 : sumSizes [m] = sumSizes ((s.blocks.drop l).take (r - l)) := by
    rw [show sumSizes [m] = m.size by simp [sumSizes]]
    exact hsum
  have hlen : (s.blocks.take l ++ [m] ++ s.blocks.drop r).length
      = l + 1 + (s.blocks.length - r) := by
    rw [length_patch hlr hr, List.length_singleton]
  rcases hout with h | h
  · exact ⟨k, by omega, getD_patch_lt h (by omega), blkAddr_patch_le (by omega) (by omega)⟩
  · refine ⟨l + 1 + (k - r), by omega, ?_, ?_⟩
    · have hg := @getD_patch_ge s.blocks [m] l r (1 + (k - r)) (by omega) (by simp)
      rw [show l + (1 + (k - r)) = l + 1 + (k - r) by omega] at hg
      rw [hg, show r + (1 + (k - r) - List.length [m]) = k by
        simp only [List.length_singleton]; omega]
    · have hb := @blkAddr_patch_ge s.blocks [m] l r k hlr hr h hsum1
      rw [show l + List.length [m] + (k - r) = l + 1 + (k - r) by
        simp only [List.length_singleton]] at hb
      exact hb

theorem place_preserves {s : Heap} {j asize k : Nat}
    (hpos : ∀ b ∈ s.blocks, 0 < b.size) (hj : j < s.blocks.length)
    (hk : k < s.blocks.length) (hne : k ≠ j) :
    ∃ k', k' < (place s (blkAddr s.blocks j) asize).blocks.length ∧
      (place s (blkAddr s.blocks j) asize).blocks.getD k' default
        = s.blocks.getD k default ∧
      blkAddr (place s (blkAddr s.blocks j) asize).blocks k' = blkAddr s.blocks k := by
  rw [place_spec hpos hj]
  by_cases hc : DSIZE * 2 ≤ (s.blocks.getD j default).size - asize
  · rw [if_pos hc]
    unfold DSIZE at hc
    dsimp only
    have hsum2 : sumSizes
          [Blk.mk asize true ((s.blocks.getD j default).data.take (asize - 8)),
            Blk.mk ((s.blocks.getD j default).size - asize) false
              ((s.blocks.getD j default).data.drop asize)]
        = sumSizes ((s.blocks.drop j).take (j + 1 - j)) := by
      rw [show j + 1 - j = 1 by omega, drop_eq_getD_cons hj]
      simp only [sumSizes, List.take_succ_cons, List.take_zero, List.map_cons,
        List.map_nil, List.sum_cons, List.sum_nil]
      omega
    rcases Nat.lt_or_ge k j with hlt | hge
    · refine ⟨k, ?_, getD_patch_lt hlt (by omega), blkAddr_patch_le (by omega) (by omega)⟩
      rw [length_patch (by omega) (by omega)]
      simp only [List.length_cons, List.length_nil]
      omega
    · have hgt : j + 1 ≤ k := by omega
      refine ⟨k + 1, ?_, ?_, ?_⟩
      · rw [length_patch (by omega) (by omega)]
        simp only [List.length_cons, List.length_nil]
        omega
      · have hg := @getD_patch_ge s.blocks
          [Blk.mk asize true ((s.blocks.getD j default).data.take (asize - 8)),
            Blk.mk ((s.blocks.getD j default).size - asize) false
              ((s.blocks.getD j default).data.drop asize)]
          j (j + 1) (k + 1 - j) (by omega) (by simp only [List.length_cons, List.length_nil]; omega)
        rw [show j + (k + 1 - j) = k + 1 by omega] at hg
        rw [hg]
        congr 1
        simp only [List.length_cons, List.length_nil]
        omega
      · have hb2 := @blkAddr_patch_ge s.blocks
          [Blk.mk asize true ((s.blocks.getD j default).data.take (asize - 8)),
            Blk.mk ((s.blocks.getD j default).size - asize) false
              ((s.blocks.getD j default).data.drop asize)]
          j (j + 1) k (by omega) (by omega) hgt hsum2
        rw [show j + List.length
            [Blk.mk asize true ((s.blocks.getD j default).data.take (asize - 8)),
              Blk.mk ((s.blocks.getD j default).size - asize) false
                ((s.blocks.getD j default).data.drop asize)] + (k - (j + 1)) = k + 1 by
          simp only [List.length_cons, List.length_nil]; omega] at hb2
        exact hb2
  · rw [if_neg hc]
    dsimp only
    refine ⟨k, ?_, ?_, ?_⟩
    · rw [List.length_set]
      exact hk
    · rw [getD_set_patch hj _ k, if_neg hne]
    · exact @blkAddr_set s.blocks j hj
        (Blk.mk (s.blocks.getD j default).size true (s.blocks.getD j default).data) rfl k

theorem free_preserves {s : Heap} (hwf : WF s) {p k : Nat}
    (hk : k < s.blocks.length)
    (halloc : (s.blocks.getD k default).alloc = true)
    (hne : blkAddr s.blocks k ≠ p) :
    ∃ k', k' < (mm_free s p).blocks.length ∧
      (mm_free s p).blocks.getD k' default = s.blocks.getD k default ∧
      blkAddr (mm_free s p).blocks k' = blkAddr s.blocks k := by
  obtain ⟨hok, hnadj, hrov, hfh, hfh2, hnum, hcap, hcap2⟩ := hwf
  have hpos : ∀ b ∈ s.blocks, 0 < b.size := fun b hb => by
    have := blkOk_iff.mp (blocksOk_iff.mp hok b hb); omega
  rw [mm_free]
  by_cases h0 : p = 0
  · rw [if_pos h0]
    exact ⟨k, hk, rfl, rfl⟩
  rw [if_neg h0]
  cases hidx : realIdxOfAddr s p with
  | none => exact ⟨k, hk, rfl, rfl⟩
  | some i =>
    have hi : i < s.blocks.length := ((realIdxOfAddr_eq_some hpos).mp hidx).1
    have hip : blkAddr s.blocks i = p := ((realIdxOfAddr_eq_some hpos).mp hidx).2
    have hki : k ≠ i := fun he => hne (by rw [he]; exact hip)
    simp only [hidx]
    set b := s.blocks.getD i default with hb
    set s1 : Heap := { s with blocks := s.blocks.set i { b with alloc := false } }
      with hs1
    have hlen1 : s1.blocks.length = s.blocks.length := by
      simp [hs1, List.length_set]
    have hget1 : ∀ j, s1.blocks.getD j default
        = if j = i then { b with alloc := false } else s.blocks.getD j default := by
      intro j
      simp only [hs1]
      exact getD_set_patch hi _ j
    have hok1 : blocksOk s1.blocks = true := by
      rw [blocksOk_iff]
      intro x hx
      simp only [hs1] at hx
      rcases List.mem_or_eq_of_mem_set hx with hmem | he
      · exact blocksOk_iff.mp hok x hmem
      · rw [he, blkOk_iff]
        have := blkOk_iff.mp (blocksOk_iff.mp hok b (getD_mem hi))
        simpa using this
    have haddr1 : ∀ j, blkAddr s1.blocks j = blkAddr s.blocks j := by
      intro j
      simp only [hs1]
      exact @blkAddr_set s.blocks i hi { b with alloc := false } rfl j
    have hfree1 : (s1.blocks.getD i default).alloc = false := by
      rw [hget1, if_pos rfl]
    have hpairs1 : ∀ j, j + 1 < s1.blocks.length → j ≠ i → j + 1 ≠ i →
        (s1.blocks.getD j default).alloc = true ∨
          (s1.blocks.getD (j + 1) default).alloc = true := by
      intro j hj hj1 hj2
      rw [hget1, hget1, if_neg hj1, if_neg hj2]
      rw [hlen1] at hj
      exact (noAdjFreeB_iff s.blocks).mp hnadj j hj
    have hg1k : s1.blocks.getD k default = s.blocks.getD k default := by
      rw [hget1, if_neg hki]
    have ha1k : blkAddr s1.blocks k = blkAddr s.blocks k := haddr1 k
    rcases coalesce_spec hok1 (by omega) hfree1 hpairs1 with
      ⟨heq, -, -⟩ | ⟨l, r, m, hl, hir, hr, heq, hmfree, hmsum, hmok, hslice, -, -⟩
    · rw [heq]
      exact ⟨k, by rw [hlen1]; exact hk, hg1k, ha1k⟩
    · rw [heq]
      have hout : k < l ∨ r ≤ k := by
        by_contra hcon
        push_neg at hcon
        have hsl := hslice k (by omega) (by omega)
        rw [hg1k, halloc] at hsl
        exact Bool.noConfusion hsl
      obtain ⟨k', h1, h2, h3⟩ := mergeUpd_preserves (show l ≤ r by omega) hr hmsum
        (by rw [hlen1]; exact hk) hout
      exact ⟨k', h1, by rw [h2, hg1k], by rw [h3, ha1k]⟩

theorem extend_preserves {s : Heap} (hwf : WF s) {words : Nat} (heven : words % 2 = 0)
    (hmin : 16 ≤ words * 4) {s' : Heap} {bp : Nat}
    (hsome : extend_heap s words = some (s', bp)) {k : Nat}
    (hk : k < s.blocks.length)
    (halloc : (s.blocks.getD k default).alloc = true) :
    ∃ k', k' < s'.blocks.length ∧ s'.blocks.getD k' default = s.blocks.getD k default ∧
      blkAddr s'.blocks k' = blkAddr s.blocks k := by
  obtain ⟨hok, hnadj, hrov, hfh, hfh2, hnum, hcap, hcap2⟩ := hwf
  set nb : Blk := Blk.mk (words * 4) false (List.replicate (words * 4 - 8) 0) with hnb
  set s1 : Heap := { s with blocks := s.blocks ++ [nb] } with hs1
  have heq0 : extend_heap s words
      = if s.capacity < heapSize s + words * 4 then none
        else some ((coalesce s1 s.blocks.length).1,
          blkAddr (coalesce s1 s.blocks.length).1.blocks
            (coalesce s1 s.blocks.length).2) := by
    unfold extend_heap
    simp only [if_neg (show ¬words % 2 = 1 by omega)]
    rfl
  rw [heq0] at hsome
  by_cases hcap3 : s.capacity < heapSize s + words * 4
  · rw [if_pos hcap3] at hsome
    exact Option.noConfusion hsome
  rw [if_neg hcap3] at hsome
  have hs' : s' = (coalesce s1 s.blocks.length).1 := by
    injection hsome with hpair
    exact (congrArg Prod.fst hpair).symm
  have hlen1 : s1.blocks.length = s.blocks.length + 1 := by
    simp [hs1]
  have hget1lt : ∀ j, j < s.blocks.length →
      s1.blocks.getD j default = s.blocks.getD j default := by
    intro j hj
    simp only [hs1]
    exact List.getD_append _ _ default j hj
  have hget1last : s1.blocks.getD s.blocks.length default = nb := by
    simp only [hs1]
    rw [List.getD_append_right _ _ default _ (Nat.le_refl _)]
    simp
  have haddr1 : ∀ j, j ≤ s.blocks.length → blkAddr s1.blocks j = blkAddr s.blocks j := by
    intro j hj
    simp only [hs1]
    exact blkAddr_append_le hj
  have hnbok : blkOk nb = true := by
    rw [blkOk_iff]
    refine ⟨?_, ?_, ?_⟩
    · show (words * 4) % 8 = 0
      omega
    · show 16 ≤ words * 4
      exact hmin
    · show (List.replicate (words * 4 - 8) 0).length = words * 4 - 8
      exact List.length_replicate _ _
  have hok1 : blocksOk s1.blocks = true := by
    rw [blocksOk_iff]
    intro x hx
    simp only [hs1] at hx
    rcases List.mem_append.mp hx with h | h
    · exact blocksOk_iff.mp hok x h
    · simp at h
      rw [h]
      exact hnbok
  have hfree1 : (s1.blocks.getD s.blocks.length default).alloc = false := by
    rw [hget1last]
  have hpairs1 : ∀ j, j + 1 < s1.blocks.length → j ≠ s.blocks.length →
      j + 1 ≠ s.blocks.length →
      (s1.blocks.getD j default).alloc = true ∨
        (s1.blocks.getD (j + 1) default).alloc = true := by
    intro j hj hj1 hj2
    rw [hlen1] at hj
    rw [hget1lt j (by omega), hget1lt (j + 1) (by omega)]
    exact (noAdjFreeB_iff s.blocks).mp hnadj j (by omega)
  have hg1k : s1.blocks.getD k default = s.blocks.getD k default := hget1lt k hk
  have ha1k : blkAddr s1.blocks k = blkAddr s.blocks k := haddr1 k (by omega)
  rw [hs']
  rcases coalesce_spec hok1 (by omega) hfree1 hpairs1 with
    ⟨heq, -, -⟩ | ⟨l, r, m, hl, hir, hr, heq, hmfree, hmsum, hmok, hslice, -, -⟩
  · rw [heq]
    exact ⟨k, by rw [hlen1]; omega, hg1k, ha1k⟩
  · rw [heq]
    have hout : k < l ∨ r ≤ k := by
      by_contra hcon
      push_neg at hcon
      have hsl := hslice k (by omega) (by omega)
      rw [hg1k, halloc] at hsl
      exact Bool.noConfusion hsl
    obtain ⟨k', h1, h2, h3⟩ := mergeUpd_preserves (show l ≤ r by omega) hr hmsum
      (by rw [hlen1]; omega) hout
    exact ⟨k', h1, by rw [h2, hg1k], by rw [h3, ha1k]⟩

theorem malloc_preserves {s : Heap} (hwf : WF s) (n : Nat) {i : Nat}
    (hi : i < s.blocks.length)
    (halloc : (s.blocks.getD i default).alloc = true) :
    ∃ i', i' < (mm_malloc s n).1.blocks.length ∧
      (mm_malloc s n).1.blocks.getD i' default = s.blocks.getD i default ∧
      blkAddr (mm_malloc s n).1.blocks i' = blkAddr s.blocks i ∧
      ∀ q, (mm_malloc s n).2 = some q → q ≠ blkAddr s.blocks i := by
  have hpos : ∀ b ∈ s.blocks, 0 < b.size := fun b hb => by
    have := blkOk_iff.mp (blocksOk_iff.mp hwf.1 b hb); omega
  by_cases h0 : n = 0
  · subst h0
    have e : mm_malloc s 0 = (s, none) := by unfold mm_malloc; rw [if_pos rfl]
    rw [e]
    exact ⟨i, hi, rfl, rfl, fun q hq => Option.noConfusion hq⟩
  obtain ⟨hasz1, hasz2, hasz3⟩ := asizeOf_facts n
  have hmeq : mm_malloc s n
      = match (find_fit s (asizeOf n)).2 with
        | some bp => (place (find_fit s (asizeOf n)).1 bp (asizeOf n), some bp)
        | none =>
          match extend_heap (find_fit s (asizeOf n)).1
              (max (asizeOf n) CHUNKSIZE / WSIZE) with
          | none => ((find_fit s (asizeOf n)).1, none)
          | some er => (place er.1 er.2 (asizeOf n), some er.2) := by
    unfold mm_malloc
    rw [if_neg h0]
  obtain ⟨hb, hf1, hf2, hf3, hf4, hrovf, hmain⟩ := @find_fit_char s (asizeOf n) hwf
  obtain ⟨hok, hnadj, hrov, hfh, hfh2, hnum, hcap, hcap2⟩ := hwf
  have hwfF : WF (find_fit s (asizeOf n)).1 := by
    refine ⟨by rw [hb]; exact hok, by rw [hb]; exact hnadj, hrovf, by rw [hf1]; exact hfh,
      by rw [hf2]; exact hfh2, by rw [hf3]; exact hnum, ?_, by rw [hf4]; exact hcap2⟩
    show 16 + sumSizes (find_fit s (asizeOf n)).1.blocks ≤ _
    rw [hb, hf4]
    exact hcap
  have hposF : ∀ b ∈ (find_fit s (asizeOf n)).1.blocks, 0 < b.size := by
    rw [hb]
    exact hpos
  have hfound : (∃ m, m < s.blocks.length ∧
      fitB (asizeOf n) (s.blocks.getD m default) = true ∧
      (find_fit s (asizeOf n)).2 = some (blkAddr s.blocks m)) ∨
      (find_fit s (asizeOf n)).2 = none := by
    rcases hmain with ⟨m, hm1, hm2, hm3, hm4, hm5, hm6⟩ | ⟨hnof, hrve, hwrap⟩
    · exact Or.inl ⟨m, hm1, hm3, hm5⟩
    · rcases hwrap with ⟨m, hw1, hw2, hw3, hw4, hw5⟩ | ⟨hnow, hnone⟩
      · exact Or.inl ⟨m, hw1, hw3, hw5⟩
      · exact Or.inr hnone
  rcases hfound with ⟨m, hm1, hmfit, hmres⟩ | hnone
  · -- a fitting free block was found; place the request there
    rw [hmeq, hmres]
    dsimp only
    have hmfree : (s.blocks.getD m default).alloc = false := (fitB_iff.mp hmfit).1
    have hmi : i ≠ m := by
      intro he
      rw [he, hmfree] at halloc
      exact Bool.noConfusion halloc
    have haddrm : blkAddr s.blocks m = blkAddr (find_fit s (asizeOf n)).1.blocks m := by
      rw [hb]
    rw [haddrm]
    obtain ⟨k', h1, h2, h3⟩ := place_preserves hposF (by rw [hb]; exact hm1)
      (by rw [hb]; exact hi) hmi
    refine ⟨k', h1, by rw [h2, hb], by rw [h3, hb], ?_⟩
    intro q hq
    simp only [Option.some_inj] at hq
    intro hcon
    rw [← hq] at hcon
    rw [hb] at hcon
    have hmi2 := blkAddr_inj hpos (show m ≤ s.blocks.length by omega)
      (show i ≤ s.blocks.length by omega) hcon
    exact hmi hmi2.symm
  · -- no fit: extend the heap
    rw [hmeq, hnone]
    dsimp only
    have hC : CHUNKSIZE = 4096 := rfl
    have hW : WSIZE = 4 := rfl
    set w : Nat := max (asizeOf n) CHUNKSIZE / WSIZE with hw
    have hweven : w % 2 = 0 := by
      rw [hw, hC, hW]
      omega
    have hwmin : 16 ≤ w * 4 := by
      rw [hw, hC, hW]
      omega
    cases hext : extend_heap (find_fit s (asizeOf n)).1 w with
    | none =>
      refine ⟨i, by rw [hb]; exact hi, by rw [hb], by rw [hb], ?_⟩
      intro q hq
      exact Option.noConfusion hq
    | some er =>
      dsimp only
      rcases wf_extend hwfF hweven hwmin with hnone2 |
        ⟨s2, bp2, hsome2, hwf2, he1, he2, he3, he4, hhs2, j, hj1, hj2, hj3, hj4⟩
      · rw [hnone2] at hext
        exact Option.noConfusion hext
      · rw [hsome2] at hext
        injection hext with hereq
        have her1 : er.1 = s2 := by rw [← hereq]
        have her2 : er.2 = bp2 := by rw [← hereq]
        have hpos2 : ∀ b ∈ s2.blocks, 0 < b.size := fun b hb2 => by
          have := blkOk_iff.mp (blocksOk_iff.mp hwf2.1 b hb2); omega
        obtain ⟨i2, hi2a, hi2b, hi2c⟩ := extend_preserves hwfF hweven hwmin hsome2
          (by rw [hb]; exact hi) (by rw [hb]; exact halloc)
        have hi2ne : i2 ≠ j := by
          intro he
          have halc2 : (s2.blocks.getD i2 default).alloc = true := by
            rw [hi2b, hb]
            exact halloc
          rw [he, hj3] at halc2
          exact Bool.noConfusion halc2
        rw [her1, her2, hj2]
        obtain ⟨k', h1, h2, h3⟩ := place_preserves hpos2 (by omega) hi2a hi2ne
        refine ⟨k', h1, ?_, ?_, ?_⟩
        · rw [h2, hi2b, hb]
        · rw [h3, hi2c, hb]
        · intro q hq
          simp only [Option.some_inj] at hq
          intro hcon
          rw [← hq] at hcon
          rw [hb] at hi2c
          rw [← hi2c] at hcon
          have hji := blkAddr_inj hpos2 (show j ≤ s2.blocks.length by omega)
            (show i2 ≤ s2.blocks.length by omega) hcon
          exact hi2ne hji.symm


theorem realloc_copy_count_counterexample :
    isLive sGrow 16 = true ∧
    usableSize sGrow 16 = 8 ∧
    (mm_realloc sGrow 16 20).2 = some 32 ∧
    reallocCopy (mm_malloc sGrow 20).1 16 20 = 20 ∧
    min 20 (usableSize sGrow 16) = 8 ∧
    (20 : Nat) ≠ 8 := by decide

/-- C2 (amended): for a live block `p` and `0 < new_size < 2^32`, the byte
count mm_realloc passes to memcpy is exactly `new_size`, not
`min(new_size, original_usable_size)`: the `size_t` read at `oldptr - 8`
(src/mm.c:252) spans the previous footer word and the block's own header
word, so its value is at least 2^32.  The first
`min(new_size, original_usable_size)` payload bytes are nevertheless copied
from the old payload and preserved in the returned block. -/
theorem realloc_copy_exact {s : Heap} {p n : Nat} (hwf : WF s)
    (hlive : isLive s p = true) (h0 : 0 < n) (hn : n < 2 ^ 32) :
    reallocCopy (mm_malloc s n).1 p n = n ∧
    ∀ q, (mm_realloc s p n).2 = some q →
      ∀ k, k < n → k < usableSize s p →
        ((blockAt (mm_realloc s p n).1 q).getD default).data.getD k 0
          = ((blockAt s p).getD default).data.getD k 0 := by
  have hpos : ∀ b ∈ s.blocks, 0 < b.size := fun b hb => by
    have := blkOk_iff.mp (blocksOk_iff.mp hwf.1 b hb); omega
  cases hidx : realIdxOfAddr s p with
  | none =>
    unfold isLive blockAt at hlive
    rw [hidx] at hlive
    exact Bool.noConfusion (show false = true from hlive)
  | some i =>
    unfold isLive blockAt at hlive
    rw [hidx] at hlive
    obtain ⟨hi, hip⟩ := (realIdxOfAddr_eq_some hpos).mp hidx
    have halloc : (s.blocks.getD i default).alloc = true := hlive
    have hbAt : blockAt s p = some (s.blocks.getD i default) := by
      unfold blockAt
      rw [hidx]
      rfl
    have husable : usableSize s p = (s.blocks.getD i default).size - 8 := by
      unfold usableSize
      rw [hbAt]
    obtain ⟨i1, hi1a, hi1b, hi1c, hqne⟩ := malloc_preserves hwf n hi halloc
    obtain ⟨hwf1, hg1, hg2, hg3, hg4, hnew⟩ := wf_malloc hwf n
    have hpos1 : ∀ b ∈ (mm_malloc s n).1.blocks, 0 < b.size := fun b hb => by
      have := blkOk_iff.mp (blocksOk_iff.mp hwf1.1 b hb); omega
    have hp1 : p = blkAddr (mm_malloc s n).1.blocks i1 := by
      rw [hi1c, hip]
    have hcopy : reallocCopy (mm_malloc s n).1 p n = n := by
      have hread : 2 ^ 32 ≤ readSizeT (mm_malloc s n).1 (p - 8) := by
        rw [hp1]
        exact readSizeT_at_block_header hwf1 hi1a
      unfold reallocCopy
      dsimp only
      rw [if_pos (show n < readSizeT (mm_malloc s n).1 (p - SIZE_T_SIZE) by
        have hST : SIZE_T_SIZE = 8 := rfl
        rw [hST]
        omega)]
    refine ⟨hcopy, ?_⟩
    intro q hq k hkn hkl
    have hn0 : n ≠ 0 := by omega
    have hre : mm_realloc s p n
        = match (mm_malloc s n).2 with
          | none => ((mm_malloc s n).1, none)
          | some newptr =>
            if n = 0 then (mm_free (mm_malloc s n).1 p, none)
            else (mm_free (memcpyBlock (mm_malloc s n).1 newptr p
                (reallocCopy (mm_malloc s n).1 p n)) p, some newptr) := by
      unfold mm_realloc
      exact rfl
    have hmq : (mm_malloc s n).2 = some q := by
      rw [hre] at hq
      cases hm2 : (mm_malloc s n).2 with
      | none =>
        rw [hm2] at hq
        exact Option.noConfusion (show (none : Option Nat) = some q from hq)
      | some q0 =>
        rw [hm2] at hq
        have hq2 : (if n = 0 then ((mm_free (mm_malloc s n).1 p, none) : Heap × Option Nat)
            else (mm_free (memcpyBlock (mm_malloc s n).1 q0 p
              (reallocCopy (mm_malloc s n).1 p n)) p, some q0)).2 = some q := hq
        rw [if_neg hn0] at hq2
        have hqq : some q0 = some q := hq2
        exact hqq
    rw [hre, hmq]
    dsimp only
    rw [if_neg hn0]
    dsimp only
    rw [hcopy]
    obtain ⟨j, hj1, hj2, hj3, hj4⟩ := hnew q hmq
    have hidx1 : realIdxOfAddr (mm_malloc s n).1 q = some j :=
      (realIdxOfAddr_eq_some hpos1).mpr ⟨hj1, hj2.symm⟩
    have hs2eq : (memcpyBlock (mm_malloc s n).1 q p n).blocks
        = (mm_malloc s n).1.blocks.set j
          (Blk.mk ((mm_malloc s n).1.blocks.getD j default).size
            ((mm_malloc s n).1.blocks.getD j default).alloc
            ((List.range n).map (fun t => byteAt (mm_malloc s n).1 (p + t))
              ++ ((mm_malloc s n).1.blocks.getD j default).data.drop n)) := by
      unfold memcpyBlock
      rw [hidx1]
    have hg2j : (memcpyBlock (mm_malloc s n).1 q p n).blocks.getD j default
        = Blk.mk ((mm_malloc s n).1.blocks.getD j default).size
            ((mm_malloc s n).1.blocks.getD j default).alloc
            ((List.range n).map (fun t => byteAt (mm_malloc s n).1 (p + t))
              ++ ((mm_malloc s n).1.blocks.getD j default).data.drop n) := by
      rw [hs2eq, getD_set_patch hj1, if_pos rfl]
    obtain ⟨hwf2, -, -, -, -, -, -⟩ := @wf_memcpy (mm_malloc s n).1 hwf1 q j hj1 hj2 p n
      (show n ≤ ((mm_malloc s n).1.blocks.getD j default).size - 8 by omega)
    have hk2 : j < (memcpyBlock (mm_malloc s n).1 q p n).blocks.length := by
      rw [hs2eq, List.length_set]
      exact hj1
    have halloc2 : ((memcpyBlock (mm_malloc s n).1 q p n).blocks.getD j default).alloc
        = true := by
      rw [hg2j]
      exact hj3
    have haddr2 : blkAddr (memcpyBlock (mm_malloc s n).1 q p n).blocks j = q := by
      rw [hs2eq, @blkAddr_set (mm_malloc s n).1.blocks j hj1
        (Blk.mk ((mm_malloc s n).1.blocks.getD j default).size
            ((mm_malloc s n).1.blocks.getD j default).alloc
            ((List.range n).map (fun t => byteAt (mm_malloc s n).1 (p + t))
              ++ ((mm_malloc s n).1.blocks.getD j default).data.drop n)) rfl j]
      exact hj2.symm
    have hqp : q ≠ p := by
      rw [← hip]
      exact hqne q hmq
    have hne2 : blkAddr (memcpyBlock (mm_malloc s n).1 q p n).blocks j ≠ p := by
      rw [haddr2]
      exact hqp
    obtain ⟨j3, hj3a, hj3b, hj3c⟩ := free_preserves hwf2 hk2 halloc2 hne2
    have hwf3 := (wf_free hwf2 p).1
    have hpos3 : ∀ b ∈ (mm_free (memcpyBlock (mm_malloc s n).1 q p n) p).blocks,
        0 < b.size := fun b hb => by
      have := blkOk_iff.mp (blocksOk_iff.mp hwf3.1 b hb); omega
    have hidx3 : realIdxOfAddr (mm_free (memcpyBlock (mm_malloc s n).1 q p n) p) q
        = some j3 :=
      (realIdxOfAddr_eq_some hpos3).mpr ⟨hj3a, by rw [hj3c, haddr2]⟩
    have hbAt3 : blockAt (mm_free (memcpyBlock (mm_malloc s n).1 q p n) p) q
        = some ((memcpyBlock (mm_malloc s n).1 q p n).blocks.getD j default) := by
      unfold blockAt
      rw [hidx3]
      rw [show ((some j3).map
          (fun i => (mm_free (memcpyBlock (mm_malloc s n).1 q p n) p).blocks.getD i default))
        = some ((mm_free (memcpyBlock (mm_malloc s n).1 q p n) p).blocks.getD j3 default)
        from rfl]
      rw [hj3b]
    rw [hbAt3, hbAt]
    show ((memcpyBlock (mm_malloc s n).1 q p n).blocks.getD j default).data.getD k 0
      = (s.blocks.getD i default).data.getD k 0
    rw [hg2j]
    show ((List.range n).map (fun t => byteAt (mm_malloc s n).1 (p + t))
        ++ ((mm_malloc s n).1.blocks.getD j default).data.drop n).getD k 0
      = (s.blocks.getD i default).data.getD k 0
    have hbk : ((List.range n).map (fun t => byteAt (mm_malloc s n).1 (p + t))).length
        = n := by
      simp
    rw [List.getD_append _ _ 0 k (by rw [hbk]; omega)]
    have hbyte : ((List.range n).map (fun t => byteAt (mm_malloc s n).1 (p + t))).getD k 0
        = byteAt (mm_malloc s n).1 (p + k) := by
      rw [List.getD_eq_getElem _ _ (by rw [hbk]; omega)]
      rw [List.getElem_map, List.getElem_range]
    rw [hbyte]
    have hku : k < (s.blocks.getD i default).size - 8 := by
      rw [husable] at hkl
      exact hkl
    have hup : byteAt (mm_malloc s n).1 (p + k)
        = ((mm_malloc s n).1.blocks.getD i1 default).data.getD k 0 := by
      rw [hp1]
      exact byteAt_payload hwf1.1 hi1a (by rw [hi1b]; omega)
    rw [hup, hi1b]

theorem realloc_copy_exact_witness :
    WF sGrow ∧ isLive sGrow 16 = true ∧ 0 < 20 ∧ 20 < 2 ^ 32 ∧
    (reallocCopy (mm_malloc sGrow 20).1 16 20 = 20 ∧
      ∀ q, (mm_realloc sGrow 16 20).2 = some q →
        ∀ k, k < 20 → k < usableSize sGrow 16 →
          ((blockAt (mm_realloc sGrow 16 20).1 q).getD default).data.getD k 0
            = ((blockAt sGrow 16).getD default).data.getD k 0) :=
  ⟨by decide, by decide, by decide, by decide,
    realloc_copy_exact (by decide) (by decide) (by decide) (by decide)⟩

end MM
